import Mathlib

/-!
Verification of the extraction & matching pipeline of the
`opportunities_finder` repository, shallowly embedded in Lean 4.

The embedding follows the Python source:
  * `ai/errors.py` — the error taxonomy (Configuration / Transient / Permanent),
  * `ai/providers/gemini.py` — key selection and JSON-response parsing,
  * `processing/services/extractor.py` — provider-fallback iteration and the
    failure handling of `extract_one`,
  * `processing/services/dedupe.py` — text normalization and content hashing,
  * `matching/services/matcher.py` — the two-stage matching engine,
  * `opportunities/models.py` / `matching/models.py` / `configs/models.py` —
    the data model rows the services read and write.

Python strings are modelled as `List Char` / `String`, machine integers and
database integers as `Int`/`Nat`, Python floats that only ever hold small
decimal scores as `Rat`, nullable columns as `Option`, and raised exceptions
as explicit error results.  Django queryset semantics are modelled on lists
of rows: `filter` is `List.filter` (with SQL `NULL` comparisons evaluating
to false), `update_or_create` is an explicit keyed upsert, and
`transaction.atomic` is modelled by discarding the transactional writes on
error (rollback) before the failure handlers run.
-/

namespace OppFinder

/-! ## AI error taxonomy (`ai/errors.py`)

`AIError` is the base class; `AIConfigurationError`, `AITransientError` and
`AIPermanentError` are its subclasses.  A raised error is modelled as a kind
plus its message. -/

inductive AIErrKind where
  | configuration
  | transient
  | permanent
  deriving DecidableEq, Repr

structure AIErr where
  kind : AIErrKind
  msg : String
  deriving DecidableEq, Repr

/-! ## Provider-fallback iteration (`processing/services/extractor.py`)

`_translate_to_english_with_fallback` and `_generate_json_with_fallback`
iterate the provider chain with identical control flow:

```
for name in chain:
    try: ... return provider, result
    except AITransientError as e: last_transient = e; continue
    except (AIPermanentError, AIConfigurationError) as e:
        if first_permanent is None: first_permanent = e
        continue
if last_transient is not None: raise last_transient
if first_permanent is not None: raise first_permanent
raise AIError("No AI providers available ...")
```

The behaviour of one provider attempt (constructing the provider and making
the call) is modelled as a `POutcome`: either a successful value or a raised
error of one of the three kinds. -/

inductive POutcome (α : Type) where
  | ok (v : α)
  | err (e : AIErr)
  deriving DecidableEq, Repr

/-- Result of running a fallback chain: the first successful value, or the
raised error (`errNone` models the final bare `raise AIError(...)` when the
chain is empty). -/
inductive FResult (α : Type) where
  | ok (v : α)
  | raised (e : AIErr)
  | errNone
  deriving DecidableEq, Repr

/-- The loop body of `_generate_json_with_fallback` /
`_translate_to_english_with_fallback`, with the `last_transient` and
`first_permanent` accumulators explicit. -/
def fallbackGo (outcomes : List (POutcome α)) (lastTransient : Option AIErr)
    (firstPermanent : Option AIErr) : FResult α :=
  match outcomes with
  | [] =>
    match lastTransient with
    | some e => .raised e
    | none =>
      match firstPermanent with
      | some e => .raised e
      | none => .errNone
  | o :: rest =>
    match o with
    | .ok v => .ok v
    | .err e =>
      match e.kind with
      | .transient => fallbackGo rest (some e) firstPermanent
      | _ =>
        match firstPermanent with
        | some _ => fallbackGo rest lastTransient firstPermanent
        | none => fallbackGo rest lastTransient (some e)

/-- `_generate_json_with_fallback` / `_translate_to_english_with_fallback`,
as a function of the per-provider outcomes along the (already reordered)
chain. -/
def fallbackRun (outcomes : List (POutcome α)) : FResult α :=
  fallbackGo outcomes none none

/-- The transient errors among a list of outcomes, in chain order. -/
def transientsOf (outcomes : List (POutcome α)) : List AIErr :=
  outcomes.filterMap fun o =>
    match o with
    | .err e => if e.kind = .transient then some e else none
    | .ok _ => none

/-- The permanent/configuration errors among a list of outcomes, in chain
order. -/
def permanentsOf (outcomes : List (POutcome α)) : List AIErr :=
  outcomes.filterMap fun o =>
    match o with
    | .err e => if e.kind = .transient then none else some e
    | .ok _ => none

/-- `_extract_with_provider_fallback` has the same accumulator discipline but
also treats a taxonomy-validation failure (`ValueError`) of a successful AI
answer as cause to try the next provider, and wraps the error raised at
exhaustion: a fresh transient error chained from the last transient, or a
fresh permanent error chained from the first permanent.  One provider attempt
therefore yields either a validated success, or an error (where a validation
failure is carried as a permanent-kind error, matching the shared
`except (AIPermanentError, AIConfigurationError, ValueError)` clause). -/
inductive ExtractFResult (α : Type) where
  | ok (v : α)
  | raisedTransientFrom (cause : AIErr)
  | raisedPermanentFrom (cause : AIErr)
  | errNone
  deriving DecidableEq, Repr

def extractFallbackGo (outcomes : List (POutcome α)) (lastTransient : Option AIErr)
    (firstPermanent : Option AIErr) : ExtractFResult α :=
  match outcomes with
  | [] =>
    match lastTransient with
    | some e => .raisedTransientFrom e
    | none =>
      match firstPermanent with
      | some e => .raisedPermanentFrom e
      | none => .errNone
  | o :: rest =>
    match o with
    | .ok v => .ok v
    | .err e =>
      match e.kind with
      | .transient => extractFallbackGo rest (some e) firstPermanent
      | _ =>
        match firstPermanent with
        | some _ => extractFallbackGo rest lastTransient firstPermanent
        | none => extractFallbackGo rest lastTransient (some e)

/-- `_extract_with_provider_fallback` as a function of the per-provider
attempt outcomes (generation plus taxonomy validation). -/
def extractFallbackRun (outcomes : List (POutcome α)) : ExtractFResult α :=
  extractFallbackGo outcomes none none

def POutcome.isOk : POutcome α → Bool
  | .ok _ => true
  | .err _ => false

/-! ## `extract_one` failure handling (`extractor.py`, lines 672-700)

The body of `extract_one` runs inside `transaction.atomic()`; when it raises,
every write of the body is rolled back, so the row reverts to its
pre-transaction state before the `except` handlers run.  The handlers then
update only the diagnostic fields via `RawOpportunity.objects.filter(...)
.update(...)` — outside the aborted transaction — and re-raise. -/

inductive ProcStatus where
  | NEW
  | TRANSLATED
  | PROCESSING
  | EXTRACTED
  | FAILED
  deriving DecidableEq, Repr

structure RawRow where
  status : ProcStatus
  errorMessage : String
  deriving DecidableEq, Repr

/-- The exceptions `extract_one` distinguishes: `AITransientError`,
`AIPermanentError`, any other `AIError` subclass (including
`AIConfigurationError`), and any other `Exception` (e.g. `ValueError`). -/
inductive ExtractErr where
  | aiTransient (msg : String)
  | aiPermanent (msg : String)
  | aiOther (msg : String)
  | otherExc (msg : String)
  deriving DecidableEq, Repr

/-- `str(e)[:2000]` -/
def truncMsg (s : String) : String := String.mk (s.toList.take 2000)

/-- `extract_one` as a state transformer on the `RawOpportunity` row:
given the pre-transaction row and the outcome of the atomic body (which, on
success, committed a new row state), produce the final persisted row and the
re-raised exception, following the four `except` clauses. -/
def extractOne (initial : RawRow) (outcome : Except ExtractErr RawRow) :
    RawRow × Option ExtractErr :=
  match outcome with
  | .ok r => (r, none)
  | .error e =>
    match e with
    | .aiTransient m => ({ initial with errorMessage := truncMsg m }, some e)
    | .aiPermanent m => ({ status := .FAILED, errorMessage := truncMsg m }, some e)
    | .aiOther m => ({ status := .FAILED, errorMessage := truncMsg m }, some e)
    | .otherExc m => ({ status := .FAILED, errorMessage := truncMsg m }, some e)

/-! ## Gemini key selection (`ai/providers/gemini.py`, `_get_next_api_key`) -/

/-- `_get_next_api_key`: `cfgKeys` is `self.cfg.api_keys`, `exhausted` the
in-memory `self._exhausted_keys`, `currentKeyIndex` the round-robin cursor
`self._current_key_index`, and `rand` resolves `random.choice` (the chosen
element is `available[rand % len(available)]`, which ranges over the whole
list as `rand` does).  Returns the key and the updated cursor. -/
def getNextApiKey (cfgKeys : List String) (exhausted : List String)
    (currentKeyIndex : Nat) (rand : Nat) : Except AIErr (String × Nat) :=
  let available := cfgKeys.filter fun k => decide (k ∉ exhausted)
  if h : available.length = 0 then
    .error ⟨.permanent,
      s!"All {cfgKeys.length} Gemini API keys exhausted. Keys exhausted: {exhausted.length}"⟩
  else
    have hpos : 0 < available.length := Nat.pos_of_ne_zero h
    if available.length = cfgKeys.length then
      .ok (available.get ⟨rand % available.length, Nat.mod_lt _ hpos⟩, currentKeyIndex)
    else
      .ok (available.get ⟨currentKeyIndex % available.length, Nat.mod_lt _ hpos⟩,
        currentKeyIndex + 1)

/-! ## Theorems: fallback chain (C3) -/

theorem fallbackGo_all_err (outcomes : List (POutcome α))
    (h : ∀ o ∈ outcomes, o.isOk = false) (lt fp : Option AIErr) :
    fallbackGo outcomes lt fp =
      match (lt.toList ++ transientsOf outcomes).getLast? with
      | some e => .raised e
      | none =>
        match (fp.toList ++ permanentsOf outcomes).head? with
        | some e => .raised e
        | none => .errNone := by
  induction outcomes generalizing lt fp with
  | nil =>
    simp [fallbackGo, transientsOf, permanentsOf]
    cases lt <;> cases fp <;> simp [Option.toList]
  | cons o rest ih =>
    match o with
    | .ok v => exact absurd (h _ (List.mem_cons_self _ _)) (by simp [POutcome.isOk])
    | .err e =>
      have hrest : ∀ o ∈ rest, o.isOk = false := fun o ho => h o (List.mem_cons_of_mem _ ho)
      have h1t : e.kind = .transient →
          transientsOf (POutcome.err e :: rest) = e :: transientsOf rest := by
        intro he
        simp [transientsOf, he]
      have h2t : e.kind = .transient →
          permanentsOf (POutcome.err e :: rest) = permanentsOf rest := by
        intro he
        simp [permanentsOf, he]
      have h1p : e.kind ≠ .transient →
          transientsOf (POutcome.err e :: rest) = transientsOf rest := by
        intro he
        simp [transientsOf, he]
      have h2p : e.kind ≠ .transient →
          permanentsOf (POutcome.err e :: rest) = e :: permanentsOf rest := by
        intro he
        simp [permanentsOf, he]
      by_cases he : e.kind = .transient
      · have hstep : fallbackGo (POutcome.err e :: rest) lt fp
            = fallbackGo rest (some e) fp := by
          simp [fallbackGo, he]
        rw [hstep, ih hrest, h1t he, h2t he]
        have hL : (lt.toList ++ e :: transientsOf rest).getLast?
            = ((some e).toList ++ transientsOf rest).getLast? :=
          List.getLast?_append_cons lt.toList e (transientsOf rest)
        rw [hL]
      · cases fp with
        | some f =>
          have hstep : fallbackGo (POutcome.err e :: rest) lt (some f)
              = fallbackGo rest lt (some f) := by
            cases hk : e.kind <;> simp_all [fallbackGo]
          rw [hstep, ih hrest, h1p he, h2p he]
          simp [Option.toList]
        | none =>
          have hstep : fallbackGo (POutcome.err e :: rest) lt none
              = fallbackGo rest lt (some e) := by
            cases hk : e.kind <;> simp_all [fallbackGo]
          rw [hstep, ih hrest, h1p he, h2p he]
          simp [Option.toList]

theorem extractFallbackGo_all_err (outcomes : List (POutcome α))
    (h : ∀ o ∈ outcomes, o.isOk = false) (lt fp : Option AIErr) :
    extractFallbackGo outcomes lt fp =
      match (lt.toList ++ transientsOf outcomes).getLast? with
      | some e => .raisedTransientFrom e
      | none =>
        match (fp.toList ++ permanentsOf outcomes).head? with
        | some e => .raisedPermanentFrom e
        | none => .errNone := by
  induction outcomes generalizing lt fp with
  | nil =>
    simp [extractFallbackGo, transientsOf, permanentsOf]
    cases lt <;> cases fp <;> simp [Option.toList]
  | cons o rest ih =>
    match o with
    | .ok v => exact absurd (h _ (List.mem_cons_self _ _)) (by simp [POutcome.isOk])
    | .err e =>
      have hrest : ∀ o ∈ rest, o.isOk = false := fun o ho => h o (List.mem_cons_of_mem _ ho)
      have h1t : e.kind = .transient →
          transientsOf (POutcome.err e :: rest) = e :: transientsOf rest := by
        intro he
        simp [transientsOf, he]
      have h2t : e.kind = .transient →
          permanentsOf (POutcome.err e :: rest) = permanentsOf rest := by
        intro he
        simp [permanentsOf, he]
      have h1p : e.kind ≠ .transient →
          transientsOf (POutcome.err e :: rest) = transientsOf rest := by
        intro he
        simp [transientsOf, he]
      have h2p : e.kind ≠ .transient →
          permanentsOf (POutcome.err e :: rest) = e :: permanentsOf rest := by
        intro he
        simp [permanentsOf, he]
      by_cases he : e.kind = .transient
      · have hstep : extractFallbackGo (POutcome.err e :: rest) lt fp
            = extractFallbackGo rest (some e) fp := by
          simp [extractFallbackGo, he]
        rw [hstep, ih hrest, h1t he, h2t he]
        have hL : (lt.toList ++ e :: transientsOf rest).getLast?
            = ((some e).toList ++ transientsOf rest).getLast? :=
          List.getLast?_append_cons lt.toList e (transientsOf rest)
        rw [hL]
      · cases fp with
        | some f =>
          have hstep : extractFallbackGo (POutcome.err e :: rest) lt (some f)
              = extractFallbackGo rest lt (some f) := by
            cases hk : e.kind <;> simp_all [extractFallbackGo]
          rw [hstep, ih hrest, h1p he, h2p he]
          simp [Option.toList]
        | none =>
          have hstep : extractFallbackGo (POutcome.err e :: rest) lt none
              = extractFallbackGo rest lt (some e) := by
            cases hk : e.kind <;> simp_all [extractFallbackGo]
          rw [hstep, ih hrest, h1p he, h2p he]
          simp [Option.toList]

theorem fallbackGo_short_circuit (pre post : List (POutcome α)) (v : α)
    (h : ∀ o ∈ pre, o.isOk = false) (lt fp : Option AIErr) :
    fallbackGo (pre ++ POutcome.ok v :: post) lt fp = .ok v := by
  induction pre generalizing lt fp with
  | nil => simp [fallbackGo]
  | cons o rest ih =>
    match o with
    | .ok w => exact absurd (h _ (List.mem_cons_self _ _)) (by simp [POutcome.isOk])
    | .err e =>
      have hrest : ∀ o ∈ rest, o.isOk = false := fun o ho => h o (List.mem_cons_of_mem _ ho)
      cases hk : e.kind <;> cases fp <;> simp [fallbackGo, hk, ih hrest]

theorem extractFallbackGo_short_circuit (pre post : List (POutcome α)) (v : α)
    (h : ∀ o ∈ pre, o.isOk = false) (lt fp : Option AIErr) :
    extractFallbackGo (pre ++ POutcome.ok v :: post) lt fp = .ok v := by
  induction pre generalizing lt fp with
  | nil => simp [extractFallbackGo]
  | cons o rest ih =>
    match o with
    | .ok w => exact absurd (h _ (List.mem_cons_self _ _)) (by simp [POutcome.isOk])
    | .err e =>
      have hrest : ∀ o ∈ rest, o.isOk = false := fun o ho => h o (List.mem_cons_of_mem _ ho)
      cases hk : e.kind <;> cases fp <;> simp [extractFallbackGo, hk, ih hrest]

/-- C3: the extraction service's provider-fallback iteration returns the first
provider success; on a Transient error it moves on remembering the last
transient, on a Permanent/Configuration error it remembers the first such
error and continues; and at exhaustion it raises the last Transient if any
Transient occurred, else the first Permanent/Configuration error (the
`_extract_with_provider_fallback` variant raises a wrapper of the matching
kind chained `from` that same error). -/
theorem extractor_provider_fallback_policy :
    (∀ (α : Type) (outcomes : List (POutcome α)),
      (∀ o ∈ outcomes, o.isOk = false) →
      (fallbackRun outcomes =
        match (transientsOf outcomes).getLast? with
        | some e => .raised e
        | none =>
          match (permanentsOf outcomes).head? with
          | some e => .raised e
          | none => .errNone) ∧
      (extractFallbackRun outcomes =
        match (transientsOf outcomes).getLast? with
        | some e => .raisedTransientFrom e
        | none =>
          match (permanentsOf outcomes).head? with
          | some e => .raisedPermanentFrom e
          | none => .errNone)) ∧
    (∀ (α : Type) (pre post : List (POutcome α)) (v : α),
      (∀ o ∈ pre, o.isOk = false) →
      fallbackRun (pre ++ POutcome.ok v :: post) = FResult.ok v ∧
      extractFallbackRun (pre ++ POutcome.ok v :: post) = ExtractFResult.ok v) := by
  constructor
  · intro α outcomes h
    constructor
    · rw [fallbackRun, fallbackGo_all_err outcomes h]
      simp [Option.toList]
    · rw [extractFallbackRun, extractFallbackGo_all_err outcomes h]
      simp [Option.toList]
  · intro α pre post v h
    exact ⟨fallbackGo_short_circuit pre post v h none none,
      extractFallbackGo_short_circuit pre post v h none none⟩

/-- Witness for C3 at a concrete chain: transient, permanent, transient
outcomes exhaust the chain and raise the *last* transient; a chain whose
second provider succeeds after a transient returns that success. -/
theorem extractor_provider_fallback_policy_witness :
    fallbackRun [POutcome.err ⟨.transient, "t1"⟩, POutcome.err ⟨.permanent, "p1"⟩,
        POutcome.err ⟨.transient, "t2"⟩] = (FResult.raised ⟨.transient, "t2"⟩ : FResult Nat) ∧
    extractFallbackRun [POutcome.err ⟨.configuration, "c1"⟩, POutcome.err ⟨.permanent, "p2"⟩]
      = (ExtractFResult.raisedPermanentFrom ⟨.configuration, "c1"⟩ : ExtractFResult Nat) ∧
    fallbackRun ([POutcome.err ⟨.transient, "t1"⟩] ++ POutcome.ok 7 :: []) = FResult.ok 7 := by
  refine ⟨?_, ?_, ?_⟩
  · have h := (extractor_provider_fallback_policy.1 Nat
      [POutcome.err ⟨.transient, "t1"⟩, POutcome.err ⟨.permanent, "p1"⟩,
        POutcome.err ⟨.transient, "t2"⟩] (by decide)).1
    rw [h]
    rfl
  · have h := (extractor_provider_fallback_policy.1 Nat
      [POutcome.err ⟨.configuration, "c1"⟩, POutcome.err ⟨.permanent, "p2"⟩] (by decide)).2
    rw [h]
    rfl
  · exact (extractor_provider_fallback_policy.2 Nat [POutcome.err ⟨.transient, "t1"⟩] [] 7
      (by decide)).1

/-! ## Theorems: `extract_one` failure handling (C4) -/

/-- C4: when the atomic body of `extract_one` raises, the row ends in exactly
the state the error class dictates: a Transient error leaves the rolled-back
row in its pre-call non-terminal status with the (truncated) error message
recorded outside the aborted transaction, while a Permanent / other-AIError /
unknown error sets the status to FAILED with the message recorded; the error
is re-raised in every case. -/
theorem extract_one_failure_policy (initial : RawRow) (e : ExtractErr)
    (hstat : initial.status = .NEW ∨ initial.status = .TRANSLATED) :
    (extractOne initial (.error e)).2 = some e ∧
    (∀ m, e = .aiTransient m →
      (extractOne initial (.error e)).1.status = initial.status ∧
      (extractOne initial (.error e)).1.status ≠ .EXTRACTED ∧
      (extractOne initial (.error e)).1.status ≠ .FAILED ∧
      (extractOne initial (.error e)).1.errorMessage = truncMsg m) ∧
    (∀ m, (e = .aiPermanent m ∨ e = .aiOther m ∨ e = .otherExc m) →
      (extractOne initial (.error e)).1.status = .FAILED ∧
      (extractOne initial (.error e)).1.errorMessage = truncMsg m) := by
  refine ⟨?_, ?_, ?_⟩
  · cases e <;> rfl
  · rintro m rfl
    refine ⟨rfl, ?_, ?_, rfl⟩ <;> rcases hstat with h | h <;> simp [extractOne, h]
  · rintro m (rfl | rfl | rfl) <;> exact ⟨rfl, rfl⟩

/-- Witness for C4: a TRANSLATED row hit by a transient error keeps its
status, and the same row hit by a permanent error goes to FAILED. -/
theorem extract_one_failure_policy_witness :
    (extractOne ⟨.TRANSLATED, ""⟩ (.error (.aiTransient "timeout"))).1.status
        = ProcStatus.TRANSLATED ∧
    (extractOne ⟨.TRANSLATED, ""⟩ (.error (.aiPermanent "bad schema"))).1.status
        = ProcStatus.FAILED := by
  constructor
  · exact ((extract_one_failure_policy ⟨.TRANSLATED, ""⟩ (.aiTransient "timeout")
      (Or.inr rfl)).2.1 "timeout" rfl).1
  · exact ((extract_one_failure_policy ⟨.TRANSLATED, ""⟩ (.aiPermanent "bad schema")
      (Or.inr rfl)).2.2 "bad schema" (Or.inl rfl)).1

/-! ## Theorems: Gemini key selection (C6) -/

theorem getNextApiKey_mem_of_ok (cfgKeys exhausted : List String) (i r : Nat)
    (key : String) (j : Nat) (h : getNextApiKey cfgKeys exhausted i r = .ok (key, j)) :
    key ∈ cfgKeys ∧ key ∉ exhausted := by
  have hkey : key ∈ cfgKeys.filter fun k => decide (k ∉ exhausted) := by
    simp only [getNextApiKey] at h
    split at h
    · exact absurd h (by simp)
    · split at h
      · simp only [Except.ok.injEq, Prod.mk.injEq] at h
        rw [← h.1]
        exact List.get_mem _ _ _
      · simp only [Except.ok.injEq, Prod.mk.injEq] at h
        rw [← h.1]
        exact List.get_mem _ _ _
  rw [List.mem_filter] at hkey
  exact ⟨hkey.1, by simpa using hkey.2⟩

/-- C6: key selection in the quota-aware Gemini provider: (a) a returned key
is always a configured, non-exhausted key (in particular, while no key is
exhausted the random choice ranges over all configured keys but never an
exhausted one); (b) when every key except one is exhausted, every call
returns that single remaining key, for every cursor and random draw; (c) when
all keys are exhausted, a Permanent error is raised. -/
theorem gemini_key_selection_policy (cfgKeys exhausted : List String) :
    (∀ i r key j, getNextApiKey cfgKeys exhausted i r = .ok (key, j) →
      key ∈ cfgKeys ∧ key ∉ exhausted) ∧
    (∀ k, k ∈ cfgKeys → k ∉ exhausted →
      (∀ k2 ∈ cfgKeys, k2 ∉ exhausted → k2 = k) →
      ∀ i r, ∃ j, getNextApiKey cfgKeys exhausted i r = .ok (k, j)) ∧
    ((∀ k ∈ cfgKeys, k ∈ exhausted) →
      ∀ i r, getNextApiKey cfgKeys exhausted i r =
        .error ⟨.permanent,
          s!"All {cfgKeys.length} Gemini API keys exhausted. Keys exhausted: {exhausted.length}"⟩) := by
  refine ⟨fun i r key j h => getNextApiKey_mem_of_ok cfgKeys exhausted i r key j h, ?_, ?_⟩
  · intro k hk hnx hall i r
    have hmem : k ∈ cfgKeys.filter fun k => decide (k ∉ exhausted) :=
      List.mem_filter.mpr ⟨hk, by simpa using hnx⟩
    have hlen : (cfgKeys.filter fun k => decide (k ∉ exhausted)).length ≠ 0 := by
      intro h0
      rw [List.length_eq_zero] at h0
      rw [h0] at hmem
      exact absurd hmem (List.not_mem_nil k)
    have hgetk : ∀ (n : Nat) (hn : n < (cfgKeys.filter fun k => decide (k ∉ exhausted)).length),
        (cfgKeys.filter fun k => decide (k ∉ exhausted)).get ⟨n, hn⟩ = k := by
      intro n hn
      have hmem2 := List.get_mem (cfgKeys.filter fun k => decide (k ∉ exhausted)) n hn
      rw [List.mem_filter] at hmem2
      exact hall _ hmem2.1 (by simpa using hmem2.2)
    simp only [getNextApiKey, hlen, dite_false]
    by_cases heq : (cfgKeys.filter fun k => decide (k ∉ exhausted)).length = cfgKeys.length
    · exact ⟨i, by simp only [heq, if_true, hgetk]⟩
    · exact ⟨i + 1, by simp only [heq, if_false, hgetk]⟩
  · intro hall i r
    have hlen : (cfgKeys.filter fun k => decide (k ∉ exhausted)).length = 0 := by
      rw [List.length_eq_zero, List.filter_eq_nil_iff]
      intro k hk
      simpa using hall k hk
    simp only [getNextApiKey, hlen, dite_true]

/-- Witness for C6 at a concrete configuration of three keys: with `k1`/`k3`
exhausted every draw returns `k2`; with all three exhausted the selector
raises a Permanent error; and a returned key is configured and
non-exhausted. -/
theorem gemini_key_selection_policy_witness :
    (∃ j, getNextApiKey ["k1", "k2", "k3"] ["k1", "k3"] 5 11 = .ok ("k2", j)) ∧
    getNextApiKey ["k1", "k2", "k3"] ["k1", "k2", "k3"] 5 11 =
      .error ⟨.permanent, "All 3 Gemini API keys exhausted. Keys exhausted: 3"⟩ ∧
    ("k2" ∈ ["k1", "k2", "k3"] ∧ "k2" ∉ ["k1", "k3"]) := by
  refine ⟨?_, ?_, ?_⟩
  · exact (gemini_key_selection_policy ["k1", "k2", "k3"] ["k1", "k3"]).2.1 "k2"
      (by decide) (by decide) (by decide) 5 11
  · exact (gemini_key_selection_policy ["k1", "k2", "k3"] ["k1", "k2", "k3"]).2.2
      (by decide) 5 11
  · have h := (gemini_key_selection_policy ["k1", "k2", "k3"] ["k1", "k3"]).1
    have hsel : getNextApiKey ["k1", "k2", "k3"] ["k1", "k3"] 0 0 = .ok ("k2", 1) := by rfl
    exact h 0 0 "k2" 1 hsel

/-! ## Data model for the matching engine
(`opportunities/models.py`, `configs/models.py`, `matching/models.py`)

Rows are modelled with the fields the matcher reads/writes; `Option` models
nullable columns, `Rat` models the float score columns. -/

inductive OppStatus where
  | ACTIVE
  | EXPIRED
  | ARCHIVED
  deriving DecidableEq, Repr

inductive WorkMode where
  | UNKNOWN
  | REMOTE
  | ONSITE
  | HYBRID
  deriving DecidableEq, Repr

inductive EmploymentType where
  | UNKNOWN
  | FULL_TIME
  | PART_TIME
  | CONTRACT
  | INTERNSHIP
  deriving DecidableEq, Repr

inductive ExperienceLevel where
  | UNKNOWN
  | STUDENT
  | GRADUATE
  | JUNIOR
  | MID
  | SENIOR
  deriving DecidableEq, Repr

structure Opportunity where
  id : Nat
  status : OppStatus
  opTypeId : Nat
  domainId : Nat
  specializationId : Nat
  locationId : Option Nat
  workMode : WorkMode
  employmentType : EmploymentType
  experienceLevel : ExperienceLevel
  minCompensation : Option Int
  maxCompensation : Option Int
  deadline : Option Int
  publishedAt : Option Int
  isRemote : Bool
  deriving DecidableEq, Repr

/-- `MatchConfig.WorkMode` etc. have an extra ANY member. -/
inductive CfgWorkMode where
  | ANY
  | REMOTE
  | ONSITE
  | HYBRID
  deriving DecidableEq, Repr

inductive CfgEmploymentType where
  | ANY
  | FULL_TIME
  | PART_TIME
  | CONTRACT
  | INTERNSHIP
  deriving DecidableEq, Repr

inductive CfgExperienceLevel where
  | ANY
  | STUDENT
  | GRADUATE
  | JUNIOR
  | MID
  | SENIOR
  deriving DecidableEq, Repr

/-- `configs/models.py` `MatchConfig`: the many-to-many preference sets are
lists of taxonomy/location ids. -/
structure MatchConfig where
  preferredOpportunityTypes : List Nat
  mutedOpportunityTypes : List Nat
  preferredDomains : List Nat
  preferredSpecializations : List Nat
  preferredLocations : List Nat
  workMode : CfgWorkMode
  employmentType : CfgEmploymentType
  experienceLevel : CfgExperienceLevel
  minCompensation : Option Int
  maxCompensation : Option Int
  deadlineAfter : Option Int
  deadlineBefore : Option Int
  deriving DecidableEq, Repr

/-- `opportunities/models.py` `Location` (id plus parent pointer). -/
structure LocationRow where
  id : Nat
  parentId : Option Nat
  deriving DecidableEq, Repr

def locationChildren (db : List LocationRow) (i : Nat) : List Nat :=
  (db.filter fun l => l.parentId = some i).map fun l => l.id

/-- `Location.descendants(include_self=True)`: self, children, then
grandchildren (the 3-level tree walk in the source). -/
def locationDescendants (db : List LocationRow) (i : Nat) : List Nat :=
  let children := locationChildren db i
  [i] ++ children ++ (children.map (locationChildren db)).flatten

/-- The union of descendant ids over the preferred locations
(`preferred_location_ids` in `_stage1_sql_filter`). -/
def preferredLocationIdsExpanded (db : List LocationRow) (prefLocs : List Nat) : List Nat :=
  (prefLocs.map (locationDescendants db)).flatten

/-- SQL `col >= y` where `col` may be NULL (NULL comparisons are not TRUE). -/
def sqlGeOpt (x : Option Int) (y : Int) : Bool :=
  match x with
  | some v => y ≤ v
  | none => false

/-- SQL `col <= y` where `col` may be NULL. -/
def sqlLeOpt (x : Option Int) (y : Int) : Bool :=
  match x with
  | some v => v ≤ y
  | none => false

/-- The conjunctive Stage-1 filter of `_stage1_sql_filter`, as the
row predicate of the final `Opportunity.objects.filter(filters)` query.
Each conjunct corresponds to one `filters &= Q(...)` in the source. -/
def stage1Passes (locDb : List LocationRow) (cfg : MatchConfig) (o : Opportunity) : Bool :=
  decide (o.status = OppStatus.ACTIVE) &&
  (if cfg.preferredOpportunityTypes ≠ [] then
      cfg.preferredOpportunityTypes.contains o.opTypeId
    else if cfg.mutedOpportunityTypes ≠ [] then
      !(cfg.mutedOpportunityTypes.contains o.opTypeId)
    else true) &&
  (if cfg.preferredDomains ≠ [] then cfg.preferredDomains.contains o.domainId else true) &&
  (if cfg.preferredSpecializations ≠ [] then
      cfg.preferredSpecializations.contains o.specializationId
    else true) &&
  (if cfg.preferredLocations ≠ [] then
      match o.locationId with
      | some l => (preferredLocationIdsExpanded locDb cfg.preferredLocations).contains l
      | none => false
    else true) &&
  (match cfg.workMode with
    | .ANY => true
    | .REMOTE => decide (o.workMode = WorkMode.REMOTE)
    | .ONSITE => decide (o.workMode = WorkMode.ONSITE)
    | .HYBRID => decide (o.workMode = WorkMode.HYBRID)) &&
  (match cfg.employmentType with
    | .ANY => true
    | .FULL_TIME => decide (o.employmentType = EmploymentType.FULL_TIME)
    | .PART_TIME => decide (o.employmentType = EmploymentType.PART_TIME)
    | .CONTRACT => decide (o.employmentType = EmploymentType.CONTRACT)
    | .INTERNSHIP => decide (o.employmentType = EmploymentType.INTERNSHIP)) &&
  (match cfg.experienceLevel with
    | .ANY => true
    | .STUDENT => decide (o.experienceLevel = ExperienceLevel.STUDENT)
    | .GRADUATE => decide (o.experienceLevel = ExperienceLevel.GRADUATE)
    | .JUNIOR => decide (o.experienceLevel = ExperienceLevel.JUNIOR)
    | .MID => decide (o.experienceLevel = ExperienceLevel.MID)
    | .SENIOR => decide (o.experienceLevel = ExperienceLevel.SENIOR)) &&
  (match cfg.minCompensation with
    | some m => sqlGeOpt o.maxCompensation m
    | none => true) &&
  (match cfg.maxCompensation with
    | some m => sqlLeOpt o.minCompensation m
    | none => true) &&
  (match cfg.deadlineAfter with
    | some d => sqlGeOpt o.deadline d
    | none => true) &&
  (match cfg.deadlineBefore with
    | some d => sqlLeOpt o.deadline d
    | none => true)

/-- `order_by("-published_at")` (descending, NULLS FIRST as Postgres orders
DESC). -/
def publishedDescLe (a b : Opportunity) : Bool :=
  match a.publishedAt, b.publishedAt with
  | none, _ => true
  | some _, none => false
  | some x, some y => y ≤ x

/-- Stable insertion sort by a Bool comparator (models the SQL ORDER BY). -/
def insertByDesc (le : α → α → Bool) (a : α) : List α → List α
  | [] => [a]
  | b :: l => if le a b then a :: b :: l else b :: insertByDesc le a l

def sortByDesc (le : α → α → Bool) : List α → List α
  | [] => []
  | a :: l => insertByDesc le a (sortByDesc le l)

/-- `_stage1_sql_filter`: filter all opportunities with the conjunctive
predicate, order by `-published_at`, and cap at `max_stage1_candidates`.
Note the filter is built from the config only — the target opportunity is
*not* singled out by the query. -/
def stage1SqlFilter (oppDb : List Opportunity) (locDb : List LocationRow)
    (cfg : MatchConfig) (maxCand : Nat) : List Opportunity :=
  ((sortByDesc publishedDescLe (oppDb.filter (stage1Passes locDb cfg))).take maxCand)

/-! ## Match rows and the Stage-2 AI re-rank (`matcher.py`) -/

inductive MatchStatus where
  | ACTIVE
  | NOTIFIED
  | IGNORED
  | EXPIRED
  deriving DecidableEq, Repr

structure MatchRow where
  userId : Nat
  oppId : Nat
  matchScore : Rat
  justification : String
  stage1Passed : Bool
  stage2Score : Option Rat
  status : MatchStatus
  deriving DecidableEq, Repr

/-- `str(x)[:n]` -/
def truncStr (n : Nat) (s : String) : String := String.mk (s.toList.take n)

/-- `max(0.0, min(10.0, float(score)))` -/
def clampScore (s : Rat) : Rat := max 0 (min 10 s)

/-- The per-user result dict of `_match_single_user` (with the number of
provider attempts made, to state the "no AI call" properties). -/
structure SingleResult where
  matchScore : Rat
  justification : String
  stage2Score : Option Rat
  existingMatch : Bool
  aiCalls : Nat
  deriving DecidableEq, Repr

/-- The provider loop of `_stage2_ai_rerank`.  Each chain element's attempt
outcome is a `POutcome (Rat × String)` (parsed `relevance_score` and
`justification` on success, the raised error otherwise).  `AITransientError`
updates `last_transient`; *everything else* — `AIPermanentError`,
`AIConfigurationError`, any `Exception` — falls into the
`except (AIPermanentError, Exception)` clause and updates `first_permanent`;
exhaustion returns the neutral 5.0 fallback (no error is ever re-raised). -/
def stage2Go (outcomes : List (POutcome (Rat × String))) (lastTransient : Option AIErr)
    (firstPermanent : Option AIErr) (calls : Nat) : SingleResult :=
  match outcomes with
  | [] =>
    let errMsg :=
      match lastTransient with
      | some e => "AI matching failed" ++ ": " ++ e.msg
      | none =>
        match firstPermanent with
        | some e => "AI matching failed" ++ ": " ++ e.msg
        | none => "AI matching failed"
    { matchScore := 5, justification := "Unable to perform AI matching - " ++ errMsg,
      stage2Score := none, existingMatch := false, aiCalls := calls }
  | o :: rest =>
    match o with
    | .ok (score, just) =>
      { matchScore := clampScore score, justification := truncStr 500 just,
        stage2Score := some (clampScore score), existingMatch := false, aiCalls := calls + 1 }
    | .err e =>
      match e.kind with
      | .transient => stage2Go rest (some e) firstPermanent (calls + 1)
      | _ =>
        match firstPermanent with
        | some _ => stage2Go rest lastTransient firstPermanent (calls + 1)
        | none => stage2Go rest lastTransient (some e) (calls + 1)

/-- `_stage2_ai_rerank` as a function of the chain outcomes. -/
def stage2AiRerank (outcomes : List (POutcome (Rat × String))) : SingleResult :=
  stage2Go outcomes none none 0

/-- `_match_single_user`: no config → `None`; an existing Match short-circuits
with its stored fields and no AI attempt; otherwise Stage 1 then Stage 2 (or
the fixed 0.0 / neutral 5.0 results). -/
def matchSingleUser (cfg : Option MatchConfig) (existing : Option MatchRow)
    (oppDb : List Opportunity) (locDb : List LocationRow) (opp : Opportunity)
    (maxCand : Nat) (outcomes : List (POutcome (Rat × String))) : Option SingleResult :=
  match cfg with
  | none => none
  | some config =>
    match existing with
    | some m =>
      some { matchScore := m.matchScore, justification := m.justification,
             stage2Score := m.stage2Score, existingMatch := true, aiCalls := 0 }
    | none =>
      let cands := stage1SqlFilter oppDb locDb config maxCand
      if cands.isEmpty then
        some { matchScore := 0, justification := "Does not match user preferences",
               stage2Score := none, existingMatch := false, aiCalls := 0 }
      else if cands.length ≤ maxCand then
        some (stage2AiRerank outcomes)
      else
        some { matchScore := 5,
               justification :=
                 "Matches basic preferences but too many candidates for detailed analysis",
               stage2Score := none, existingMatch := false, aiCalls := 0 }

/-- `Match.objects.filter(user=..., opportunity=...).first()` -/
def findMatch (rows : List MatchRow) (u o : Nat) : Option MatchRow :=
  rows.find? fun r => decide (r.userId = u) && decide (r.oppId = o)

/-- `_create_match_record`: `Match.objects.update_or_create` keyed by
(user, opportunity) with defaults forcing `stage1_passed=True` and
`status=ACTIVE`. -/
def updateOrCreateMatch (rows : List MatchRow) (u o : Nat) (score : Rat)
    (just : String) (s2 : Option Rat) : List MatchRow :=
  if rows.any fun r => decide (r.userId = u) && decide (r.oppId = o) then
    rows.map fun r =>
      if decide (r.userId = u) && decide (r.oppId = o) then
        { r with matchScore := score, justification := just, stage2Score := s2,
                 stage1Passed := true, status := MatchStatus.ACTIVE }
      else r
  else rows ++ [⟨u, o, score, just, true, s2, MatchStatus.ACTIVE⟩]

/-- One user's Django user row with its (optional) `match_config` and the
stage-2 chain outcomes for this (user, opportunity) evaluation. -/
structure UserRec where
  userId : Nat
  config : Option MatchConfig
  aiOutcomes : List (POutcome (Rat × String))
  deriving DecidableEq, Repr

/-- The loop body of `match_opportunity_to_users` for one user: evaluate the
pair, and if the score meets `min_match_score` and the result is not a reused
existing match, upsert the Match row.  Returns the new Match table, the
number of AI attempts, and the evaluation result. -/
def matchOpportunityToUsersStep (minScore : Rat) (oppDb : List Opportunity)
    (locDb : List LocationRow) (maxCand : Nat) (opp : Opportunity)
    (st : List MatchRow) (u : UserRec) : List MatchRow × Nat × Option SingleResult :=
  let existing := findMatch st u.userId opp.id
  match matchSingleUser u.config existing oppDb locDb opp maxCand u.aiOutcomes with
  | none => (st, 0, none)
  | some res =>
    if minScore ≤ res.matchScore then
      if res.existingMatch then (st, res.aiCalls, some res)
      else
        (updateOrCreateMatch st u.userId opp.id res.matchScore res.justification
          res.stage2Score, res.aiCalls, some res)
    else (st, res.aiCalls, some res)

/-- `match_opportunity_to_users`: load the ACTIVE opportunity by id, then run
the per-user loop, accumulating the Match table and the AI attempt count. -/
def matchOpportunityToUsers (minScore : Rat) (oppDb : List Opportunity)
    (locDb : List LocationRow) (maxCand : Nat) (oppId : Nat) (users : List UserRec)
    (st : List MatchRow) : List MatchRow × Nat :=
  match oppDb.find? fun o => decide (o.id = oppId) && decide (o.status = OppStatus.ACTIVE) with
  | none => (st, 0)
  | some opp =>
    users.foldl
      (fun acc u =>
        let r := matchOpportunityToUsersStep minScore oppDb locDb maxCand opp acc.1 u
        (r.1, acc.2 + r.2.1))
      (st, 0)

/-- The `unique_together = ("user", "opportunity")` constraint of
`matching/models.py`. -/
def UniquePairs (rows : List MatchRow) : Prop :=
  rows.Pairwise fun a b => ¬(a.userId = b.userId ∧ a.oppId = b.oppId)

/-! ## `Opportunity.save` (`opportunities/models.py`, lines 272-275) -/

/-- `Opportunity.save`: derive `is_remote` from `work_mode`, then persist. -/
def saveOpportunity (o : Opportunity) : Opportunity :=
  { o with isRemote := decide (o.workMode = WorkMode.REMOTE) }

/-- Persisting through `Model.save()`: UPDATE the row with the same pk if one
exists, INSERT otherwise — always writing the state fixed up by
`Opportunity.save`. -/
def persistOpportunity (db : List Opportunity) (o : Opportunity) : List Opportunity :=
  let saved := saveOpportunity o
  if db.any fun r => decide (r.id = saved.id) then
    db.map fun r => if r.id = saved.id then saved else r
  else db ++ [saved]

/-! ## Helper lemmas about the Match-table operations -/

theorem updateOrCreateMatch_unique (rows : List MatchRow) (u o : Nat) (score : Rat)
    (just : String) (s2 : Option Rat) (h : UniquePairs rows) :
    UniquePairs (updateOrCreateMatch rows u o score just s2) := by
  unfold updateOrCreateMatch
  split
  · rw [UniquePairs, List.pairwise_map]
    refine h.imp ?_
    intro a b hab
    split <;> split <;> simpa using hab
  · next hany =>
    rw [UniquePairs, List.pairwise_append]
    refine ⟨h, List.pairwise_singleton _ _, ?_⟩
    intro a ha b hb hk
    rw [List.mem_singleton] at hb
    subst hb
    rw [List.any_eq_true] at hany
    exact hany ⟨a, ha, by simp [hk.1, hk.2]⟩

theorem findMatch_updateOrCreateMatch (rows : List MatchRow) (u o : Nat) (score : Rat)
    (just : String) (s2 : Option Rat) :
    findMatch (updateOrCreateMatch rows u o score just s2) u o
      = some ⟨u, o, score, just, true, s2, MatchStatus.ACTIVE⟩ := by
  unfold updateOrCreateMatch
  split
  · next hany =>
    induction rows with
    | nil => simp at hany
    | cons r rest ih =>
      by_cases hp : (decide (r.userId = u) && decide (r.oppId = o)) = true
      · have hkey : r.userId = u ∧ r.oppId = o := by simpa using hp
        simp only [findMatch, List.map_cons, if_pos hp, List.find?_cons]
        simp [hkey.1, hkey.2]
      · have hpe : (decide (r.userId = u) && decide (r.oppId = o)) = false :=
          Bool.eq_false_iff.mpr hp
        have hany2 : (rest.any fun r => decide (r.userId = u) && decide (r.oppId = o))
            = true := by
          rw [List.any_cons, hpe] at hany
          simpa using hany
        have hrec := ih hany2
        simp only [findMatch] at hrec ⊢
        simp only [List.map_cons]
        rw [if_neg hp]
        simp only [List.find?_cons, hpe]
        exact hrec
  · next hany =>
    rw [findMatch, List.find?_append]
    have h1 : List.find? (fun r => decide (r.userId = u) && decide (r.oppId = o)) rows
        = none := by
      rw [List.find?_eq_none]
      intro x hx hpx
      exact hany (List.any_eq_true.mpr ⟨x, hx, hpx⟩)
    rw [h1]
    simp

/-! ## Theorems: idempotence of re-matching an existing pair (C2) -/

/-- C2: when a Match row already exists for (user, opportunity), a further
`match_opportunity_to_users` evaluation of that pair makes no AI attempt,
leaves the Match table unchanged, and returns the stored score/justification
of the existing row; and the upsert keyed by (user, opportunity) preserves
the at-most-one-row-per-pair invariant of the unique constraint for every
user step. -/
theorem match_existing_pair_idempotent (minScore : Rat) (oppDb : List Opportunity)
    (locDb : List LocationRow) (maxCand : Nat) (opp : Opportunity) :
    (∀ (st : List MatchRow) (u : UserRec) (cfg : MatchConfig) (m : MatchRow),
      u.config = some cfg →
      findMatch st u.userId opp.id = some m →
      matchOpportunityToUsersStep minScore oppDb locDb maxCand opp st u
        = (st, 0, some { matchScore := m.matchScore, justification := m.justification,
                         stage2Score := m.stage2Score, existingMatch := true,
                         aiCalls := 0 })) ∧
    (∀ (st : List MatchRow) (u : UserRec), UniquePairs st →
      UniquePairs ((matchOpportunityToUsersStep minScore oppDb locDb maxCand opp st u).1)) := by
  constructor
  · intro st u cfg m hcfg hfind
    unfold matchOpportunityToUsersStep
    rw [hfind, hcfg]
    simp only [matchSingleUser, if_true]
    rw [ite_self]
  · intro st u hu
    simp only [matchOpportunityToUsersStep]
    cases hms : matchSingleUser u.config (findMatch st u.userId opp.id) oppDb locDb opp
        maxCand u.aiOutcomes with
    | none =>
      simp only [hms]
      exact hu
    | some res =>
      simp only [hms]
      split
      · split
        · exact hu
        · exact updateOrCreateMatch_unique _ _ _ _ _ _ hu
      · exact hu

/-- Witness for C2: with an existing Match of score 9.5 for (user 7,
opportunity 1), the step changes nothing, issues no AI attempt, and returns
the stored fields; the uniqueness invariant is preserved on that table. -/
theorem match_existing_pair_idempotent_witness :
    matchOpportunityToUsersStep 7 [] [] 20
        ⟨1, .ACTIVE, 1, 1, 1, none, .UNKNOWN, .UNKNOWN, .UNKNOWN, none, none, none, none, false⟩
        [⟨7, 1, (19 : Rat)/2, "stored", true, some ((19 : Rat)/2), .ACTIVE⟩]
        ⟨7, some ⟨[], [], [], [], [], .ANY, .ANY, .ANY, none, none, none, none⟩,
          [POutcome.ok (8, "should not be used")]⟩
      = ([⟨7, 1, (19 : Rat)/2, "stored", true, some ((19 : Rat)/2), .ACTIVE⟩], 0,
          some { matchScore := (19 : Rat)/2, justification := "stored",
                 stage2Score := some ((19 : Rat)/2), existingMatch := true, aiCalls := 0 }) ∧
    UniquePairs [⟨7, 1, (19 : Rat)/2, "stored", true, some ((19 : Rat)/2), .ACTIVE⟩] := by
  constructor
  · exact (match_existing_pair_idempotent 7 [] [] 20
      ⟨1, .ACTIVE, 1, 1, 1, none, .UNKNOWN, .UNKNOWN, .UNKNOWN, none, none, none, none, false⟩).1
      [⟨7, 1, (19 : Rat)/2, "stored", true, some ((19 : Rat)/2), .ACTIVE⟩]
      ⟨7, some ⟨[], [], [], [], [], .ANY, .ANY, .ANY, none, none, none, none⟩,
        [POutcome.ok (8, "should not be used")]⟩
      ⟨[], [], [], [], [], .ANY, .ANY, .ANY, none, none, none, none⟩
      ⟨7, 1, (19 : Rat)/2, "stored", true, some ((19 : Rat)/2), .ACTIVE⟩
      rfl (by rfl)
  · exact List.pairwise_singleton _ _

/-! ## Theorems: threshold-gated upsert for new pairs (C9) -/

/-- C9: for an evaluated pair with a config and no pre-existing Match row, a
Match row exists after the step iff the resulting score reaches
`min_match_score`; a below-threshold result leaves the table unchanged (no
persisted row for the pair), and an above-threshold result persists exactly
the upsert keyed by (user, opportunity) whose row carries the result's score
and justification with `stage1_passed = True` and `status = ACTIVE`. -/
theorem stage2Go_existingMatch (outs : List (POutcome (Rat × String))) :
    ∀ (lt fp : Option AIErr) (c : Nat), (stage2Go outs lt fp c).existingMatch = false := by
  induction outs with
  | nil => intro lt fp c; cases lt <;> cases fp <;> rfl
  | cons oh rest ih =>
    intro lt fp c
    match oh with
    | .ok (sc, j) => rfl
    | .err e =>
      cases he : e.kind with
      | transient =>
        have hstep : stage2Go (POutcome.err e :: rest) lt fp c
            = stage2Go rest (some e) fp (c + 1) := by
          simp [stage2Go, he]
        rw [hstep]
        exact ih _ _ _
      | configuration =>
        cases fp with
        | some f =>
          have hstep : stage2Go (POutcome.err e :: rest) lt (some f) c
              = stage2Go rest lt (some f) (c + 1) := by
            simp [stage2Go, he]
          rw [hstep]
          exact ih _ _ _
        | none =>
          have hstep : stage2Go (POutcome.err e :: rest) lt none c
              = stage2Go rest lt (some e) (c + 1) := by
            simp [stage2Go, he]
          rw [hstep]
          exact ih _ _ _
      | permanent =>
        cases fp with
        | some f =>
          have hstep : stage2Go (POutcome.err e :: rest) lt (some f) c
              = stage2Go rest lt (some f) (c + 1) := by
            simp [stage2Go, he]
          rw [hstep]
          exact ih _ _ _
        | none =>
          have hstep : stage2Go (POutcome.err e :: rest) lt none c
              = stage2Go rest lt (some e) (c + 1) := by
            simp [stage2Go, he]
          rw [hstep]
          exact ih _ _ _

theorem matchSingleUser_new_existingMatch (cfg : MatchConfig) (oppDb : List Opportunity)
    (locDb : List LocationRow) (opp : Opportunity) (maxCand : Nat)
    (outs : List (POutcome (Rat × String))) :
    ∀ res, matchSingleUser (some cfg) none oppDb locDb opp maxCand outs = some res →
      res.existingMatch = false := by
  intro res hres
  simp only [matchSingleUser] at hres
  split at hres
  · cases hres
    rfl
  · split at hres
    · cases hres
      exact stage2Go_existingMatch outs none none 0
    · cases hres
      rfl

/-- C9: for an evaluated pair with a config and no pre-existing Match row, a
Match row exists after the step iff the resulting score reaches
`min_match_score`; a below-threshold result leaves the table unchanged (no
persisted row for the pair), and an above-threshold result persists exactly
the upsert keyed by (user, opportunity) whose row carries the result's score
and justification with `stage1_passed = True` and `status = ACTIVE`. -/
theorem match_new_pair_threshold_upsert (minScore : Rat) (oppDb : List Opportunity)
    (locDb : List LocationRow) (maxCand : Nat) (opp : Opportunity) (st : List MatchRow)
    (u : UserRec) (cfg : MatchConfig)
    (hcfg : u.config = some cfg)
    (hnone : findMatch st u.userId opp.id = none) :
    ∃ r, (matchOpportunityToUsersStep minScore oppDb locDb maxCand opp st u).2.2 = some r ∧
      r.existingMatch = false ∧
      (minScore ≤ r.matchScore →
        (matchOpportunityToUsersStep minScore oppDb locDb maxCand opp st u).1
          = updateOrCreateMatch st u.userId opp.id r.matchScore r.justification r.stage2Score ∧
        findMatch (matchOpportunityToUsersStep minScore oppDb locDb maxCand opp st u).1
            u.userId opp.id
          = some ⟨u.userId, opp.id, r.matchScore, r.justification, true, r.stage2Score,
              MatchStatus.ACTIVE⟩) ∧
      (¬ minScore ≤ r.matchScore →
        (matchOpportunityToUsersStep minScore oppDb locDb maxCand opp st u).1 = st ∧
        findMatch (matchOpportunityToUsersStep minScore oppDb locDb maxCand opp st u).1
            u.userId opp.id = none) := by
  cases hres : matchSingleUser u.config (findMatch st u.userId opp.id) oppDb locDb opp
      maxCand u.aiOutcomes with
  | none =>
    exfalso
    rw [hcfg, hnone] at hres
    simp only [matchSingleUser] at hres
    split at hres
    · simp at hres
    · split at hres <;> simp at hres
  | some res =>
    have hexf : res.existingMatch = false := by
      have hres2 := hres
      rw [hcfg, hnone] at hres2
      exact matchSingleUser_new_existingMatch cfg oppDb locDb opp maxCand u.aiOutcomes res hres2
    refine ⟨res, ?_, hexf, ?_, ?_⟩
    · simp only [matchOpportunityToUsersStep, hres]
      split
      · split <;> rfl
      · rfl
    · intro hsc
      simp only [matchOpportunityToUsersStep, hres, if_pos hsc, hexf, Bool.false_eq_true,
        if_false]
      constructor
      · trivial
      · exact findMatch_updateOrCreateMatch st u.userId opp.id _ _ _
    · intro hsc
      simp only [matchOpportunityToUsersStep, hres, if_neg hsc]
      constructor
      · trivial
      · exact hnone

/-- Witness for C9: a user whose preferences are empty except a compensation
range matching the only opportunity; the AI scores 8 ≥ 7, so a single ACTIVE
row with `stage1_passed = true` is persisted; scoring 3 < 7 persists
nothing. -/
theorem match_new_pair_threshold_upsert_witness :
    (matchOpportunityToUsersStep 7
        [⟨1, .ACTIVE, 1, 1, 1, none, .UNKNOWN, .UNKNOWN, .UNKNOWN, some 1000, some 2000,
          none, none, false⟩] [] 20
        ⟨1, .ACTIVE, 1, 1, 1, none, .UNKNOWN, .UNKNOWN, .UNKNOWN, some 1000, some 2000,
          none, none, false⟩ []
        ⟨7, some ⟨[], [], [], [], [], .ANY, .ANY, .ANY, none, none, none, none⟩,
          [POutcome.ok (8, "fits")]⟩).1
      = [⟨7, 1, 8, "fits", true, some 8, MatchStatus.ACTIVE⟩] ∧
    (matchOpportunityToUsersStep 7
        [⟨1, .ACTIVE, 1, 1, 1, none, .UNKNOWN, .UNKNOWN, .UNKNOWN, some 1000, some 2000,
          none, none, false⟩] [] 20
        ⟨1, .ACTIVE, 1, 1, 1, none, .UNKNOWN, .UNKNOWN, .UNKNOWN, some 1000, some 2000,
          none, none, false⟩ []
        ⟨7, some ⟨[], [], [], [], [], .ANY, .ANY, .ANY, none, none, none, none⟩,
          [POutcome.ok (3, "weak")]⟩).1 = [] := by
  have h8 := match_new_pair_threshold_upsert 7
    [⟨1, .ACTIVE, 1, 1, 1, none, .UNKNOWN, .UNKNOWN, .UNKNOWN, some 1000, some 2000,
      none, none, false⟩] [] 20
    ⟨1, .ACTIVE, 1, 1, 1, none, .UNKNOWN, .UNKNOWN, .UNKNOWN, some 1000, some 2000,
      none, none, false⟩ []
    ⟨7, some ⟨[], [], [], [], [], .ANY, .ANY, .ANY, none, none, none, none⟩,
      [POutcome.ok (8, "fits")]⟩
    ⟨[], [], [], [], [], .ANY, .ANY, .ANY, none, none, none, none⟩ rfl rfl
  have h3 := match_new_pair_threshold_upsert 7
    [⟨1, .ACTIVE, 1, 1, 1, none, .UNKNOWN, .UNKNOWN, .UNKNOWN, some 1000, some 2000,
      none, none, false⟩] [] 20
    ⟨1, .ACTIVE, 1, 1, 1, none, .UNKNOWN, .UNKNOWN, .UNKNOWN, some 1000, some 2000,
      none, none, false⟩ []
    ⟨7, some ⟨[], [], [], [], [], .ANY, .ANY, .ANY, none, none, none, none⟩,
      [POutcome.ok (3, "weak")]⟩
    ⟨[], [], [], [], [], .ANY, .ANY, .ANY, none, none, none, none⟩ rfl rfl
  constructor
  · obtain ⟨r, hr, hexf, hup, hdown⟩ := h8
    have hrval : r = { matchScore := 8, justification := "fits", stage2Score := some 8,
                       existingMatch := false, aiCalls := 1 } := by
      have : (matchOpportunityToUsersStep 7
          [⟨1, .ACTIVE, 1, 1, 1, none, .UNKNOWN, .UNKNOWN, .UNKNOWN, some 1000, some 2000,
            none, none, false⟩] [] 20
          ⟨1, .ACTIVE, 1, 1, 1, none, .UNKNOWN, .UNKNOWN, .UNKNOWN, some 1000, some 2000,
            none, none, false⟩ []
          ⟨7, some ⟨[], [], [], [], [], .ANY, .ANY, .ANY, none, none, none, none⟩,
            [POutcome.ok (8, "fits")]⟩).2.2
          = some { matchScore := 8, justification := "fits", stage2Score := some 8,
                   existingMatch := false, aiCalls := 1 } := by decide
      rw [this] at hr
      exact (Option.some_inj.mp hr).symm
    rw [(hup (by rw [hrval]; norm_num)).1, hrval]
    rfl
  · obtain ⟨r, hr, hexf, hup, hdown⟩ := h3
    have hrval : r = { matchScore := 3, justification := "weak", stage2Score := some 3,
                       existingMatch := false, aiCalls := 1 } := by
      have : (matchOpportunityToUsersStep 7
          [⟨1, .ACTIVE, 1, 1, 1, none, .UNKNOWN, .UNKNOWN, .UNKNOWN, some 1000, some 2000,
            none, none, false⟩] [] 20
          ⟨1, .ACTIVE, 1, 1, 1, none, .UNKNOWN, .UNKNOWN, .UNKNOWN, some 1000, some 2000,
            none, none, false⟩ []
          ⟨7, some ⟨[], [], [], [], [], .ANY, .ANY, .ANY, none, none, none, none⟩,
            [POutcome.ok (3, "weak")]⟩).2.2
          = some { matchScore := 3, justification := "weak", stage2Score := some 3,
                   existingMatch := false, aiCalls := 1 } := by decide
      rw [this] at hr
      exact (Option.some_inj.mp hr).symm
    exact (hdown (by rw [hrval]; norm_num)).1

/-! ## Theorems: configuration errors in the Stage-2 re-rank (C5) -/

/-- Counterexample to C5: the Stage-2 provider loop catches
`(AIPermanentError, Exception)` — which includes `AIConfigurationError` — so
a chain in which the only provider fails with a Configuration error (missing
credentials) does *not* raise: it returns the neutral 5.0 score with
`stage2_score = None`.  The claimed "raises rather than returning the neutral
5.0 score" is false on the code. -/
theorem stage2_config_error_counterexample :
    stage2AiRerank [POutcome.err ⟨.configuration, "missing credentials"⟩]
      = { matchScore := 5,
          justification := "Unable to perform AI matching - AI matching failed: missing credentials",
          stage2Score := none, existingMatch := false, aiCalls := 1 } := by
  decide

theorem stage2Go_all_nontransient (rest : List (POutcome (Rat × String)))
    (h : ∀ o ∈ rest, ∃ e, o = POutcome.err e ∧ e.kind ≠ .transient) (f : AIErr) :
    ∀ c, stage2Go rest none (some f) c
      = { matchScore := 5,
          justification := "Unable to perform AI matching - " ++ ("AI matching failed" ++ ": " ++ f.msg),
          stage2Score := none, existingMatch := false, aiCalls := c + rest.length } := by
  induction rest with
  | nil => intro c; rfl
  | cons o rest ih =>
    intro c
    obtain ⟨e, rfl, hek⟩ := h o (List.mem_cons_self _ _)
    have hrest : ∀ o ∈ rest, ∃ e, o = POutcome.err e ∧ e.kind ≠ .transient :=
      fun o ho => h o (List.mem_cons_of_mem _ ho)
    have hstep : stage2Go (POutcome.err e :: rest) none (some f) c
        = stage2Go rest none (some f) (c + 1) := by
      cases hk : e.kind
      · simp [stage2Go, hk]
      · exact absurd hk hek
      · simp [stage2Go, hk]
    rw [hstep, ih hrest (c + 1)]
    have : c + 1 + rest.length = c + (rest.length + 1) := by omega
    rw [this]
    rfl

/-- C5 amended: when every provider in the chain fails with a Configuration
error, the Stage-2 re-rank does *not* raise — it returns the neutral 5.0
score with `stage2_score = None` and a justification naming the first
(configuration) error, after attempting every provider. -/
theorem stage2_all_config_errors_neutral (e0 : AIErr) (rest : List (POutcome (Rat × String)))
    (h0 : e0.kind = .configuration)
    (hrest : ∀ o ∈ rest, ∃ e, o = POutcome.err e ∧ e.kind = .configuration) :
    stage2AiRerank (POutcome.err e0 :: rest)
      = { matchScore := 5,
          justification := "Unable to perform AI matching - " ++ ("AI matching failed" ++ ": " ++ e0.msg),
          stage2Score := none, existingMatch := false, aiCalls := rest.length + 1 } := by
  have hstep : stage2AiRerank (POutcome.err e0 :: rest) = stage2Go rest none (some e0) 1 := by
    simp [stage2AiRerank, stage2Go, h0]
  rw [hstep, stage2Go_all_nontransient rest
    (fun o ho => by
      obtain ⟨e, he, hek⟩ := hrest o ho
      exact ⟨e, he, by rw [hek]; intro hc; cases hc⟩) e0 1]
  have : 1 + rest.length = rest.length + 1 := by omega
  rw [this]

/-- Witness for the amended C5: two providers, both misconfigured, yield the
neutral record naming the first error. -/
theorem stage2_all_config_errors_neutral_witness :
    stage2AiRerank [POutcome.err ⟨.configuration, "no key"⟩,
        POutcome.err ⟨.configuration, "no key 2"⟩]
      = { matchScore := 5,
          justification := "Unable to perform AI matching - " ++ ("AI matching failed" ++ ": " ++ "no key"),
          stage2Score := none, existingMatch := false, aiCalls := 2 } := by
  exact stage2_all_config_errors_neutral ⟨.configuration, "no key"⟩
    [POutcome.err ⟨.configuration, "no key 2"⟩] rfl
    (by
      intro o ho
      rw [List.mem_singleton] at ho
      exact ⟨⟨.configuration, "no key 2"⟩, ho, rfl⟩)

/-! ## Theorems: Stage-1 compensation exclusion (C1) -/

theorem mem_insertByDesc (le : α → α → Bool) (a x : α) (l : List α) :
    x ∈ insertByDesc le a l ↔ x = a ∨ x ∈ l := by
  induction l with
  | nil => simp [insertByDesc]
  | cons b l ih =>
    by_cases h : le a b = true
    · simp [insertByDesc, h]
    · have hf : le a b = false := Bool.eq_false_iff.mpr h
      simp only [insertByDesc, hf, Bool.false_eq_true, if_false, List.mem_cons, ih]
      tauto

theorem mem_sortByDesc (le : α → α → Bool) (x : α) (l : List α) :
    x ∈ sortByDesc le l ↔ x ∈ l := by
  induction l with
  | nil => simp [sortByDesc]
  | cons a l ih =>
    simp only [sortByDesc, mem_insertByDesc, List.mem_cons, ih]

/-- Concrete world for the C1 counterexample: the user wants 2000-5000, the
target opportunity pays at most 1000, but a second active opportunity in the
database pays 2500-3000 and satisfies the user's filter. -/
def cfgC1 : MatchConfig :=
  ⟨[], [], [], [], [], .ANY, .ANY, .ANY, some 2000, some 5000, none, none⟩

def oppTargetC1 : Opportunity :=
  ⟨1, .ACTIVE, 1, 1, 1, none, .UNKNOWN, .UNKNOWN, .UNKNOWN, some 500, some 1000, none, none,
    false⟩

def oppOtherC1 : Opportunity :=
  ⟨2, .ACTIVE, 1, 1, 1, none, .UNKNOWN, .UNKNOWN, .UNKNOWN, some 2500, some 3000, none, none,
    false⟩

def userC1 : UserRec := ⟨7, some cfgC1, [POutcome.ok (8, "relevant")]⟩

/-- Counterexample to C1: the Stage-1 query filters *all* active
opportunities against the user's config — it never constrains the result to
the target opportunity.  With `min_compensation=2000, max_compensation=5000`
against a target with `max_compensation=1000`, a second matching opportunity
makes the candidate list non-empty, so a Stage-2 AI call *is* issued for the
(user, target) pair and (the AI scoring 8 ≥ 7) a Match row *is* persisted
for it. -/
theorem stage1_compensation_claim_counterexample :
    cfgC1.minCompensation = some 2000 ∧ cfgC1.maxCompensation = some 5000 ∧
    oppTargetC1.maxCompensation = some 1000 ∧
    (matchOpportunityToUsersStep 7 [oppTargetC1, oppOtherC1] [] 20 oppTargetC1 [] userC1).2.1
      = 1 ∧
    findMatch (matchOpportunityToUsersStep 7 [oppTargetC1, oppOtherC1] [] 20 oppTargetC1 []
        userC1).1 7 1
      = some ⟨7, 1, 8, "relevant", true, some 8, MatchStatus.ACTIVE⟩ := by
  exact ⟨rfl, rfl, rfl, by decide, by decide⟩

/-- C1 amended: a user whose configured compensation range does not overlap
the target opportunity's compensation excludes the target from the Stage-1
candidate list (it can never be among the candidates); and whenever the
Stage-1 filter yields zero candidates (in particular when the target is the
only active opportunity), the user receives the fixed low score 0.0 with the
canned justification, no AI attempt is made, and no Match row is persisted
(0 is below any positive threshold). -/
theorem stage1_compensation_exclusion (oppDb : List Opportunity) (locDb : List LocationRow)
    (cfg : MatchConfig) (maxCand : Nat) (opp : Opportunity) (m v : Int)
    (hmin : cfg.minCompensation = some m)
    (hmax : opp.maxCompensation = some v)
    (hlt : v < m) :
    opp ∉ stage1SqlFilter oppDb locDb cfg maxCand ∧
    (∀ (st : List MatchRow) (u : UserRec) (minScore : Rat),
      u.config = some cfg →
      findMatch st u.userId opp.id = none →
      stage1SqlFilter oppDb locDb cfg maxCand = [] →
      0 < minScore →
      matchOpportunityToUsersStep minScore oppDb locDb maxCand opp st u
        = (st, 0, some { matchScore := 0, justification := "Does not match user preferences",
                         stage2Score := none, existingMatch := false, aiCalls := 0 })) := by
  constructor
  · have hfail : stage1Passes locDb cfg opp = false := by
      have hge : sqlGeOpt opp.maxCompensation m = false := by
        rw [hmax]
        simp only [sqlGeOpt, decide_eq_false_iff_not]
        omega
      simp only [stage1Passes, hmin, hge]
      simp
    intro hmem
    unfold stage1SqlFilter at hmem
    have h1 : opp ∈ sortByDesc publishedDescLe (oppDb.filter (stage1Passes locDb cfg)) :=
      List.mem_of_mem_take hmem
    rw [mem_sortByDesc] at h1
    rw [List.mem_filter] at h1
    rw [hfail] at h1
    exact absurd h1.2 (by simp)
  · intro st u minScore hcfg hnone hempty hpos
    simp only [matchOpportunityToUsersStep, hnone, hcfg, matchSingleUser, hempty,
      List.isEmpty_nil, if_true]
    rw [if_neg (by
      intro hle
      exact absurd (lt_of_lt_of_le hpos hle) (by norm_num))]

/-- Witness for the amended C1: with the target as the only opportunity in
the database and the same non-overlapping compensation config, the target is
excluded and the evaluation returns the fixed 0.0 with no AI attempt and an
unchanged (empty) Match table. -/
theorem stage1_compensation_exclusion_witness :
    oppTargetC1 ∉ stage1SqlFilter [oppTargetC1] [] cfgC1 20 ∧
    matchOpportunityToUsersStep 7 [oppTargetC1] [] 20 oppTargetC1 [] userC1
      = ([], 0, some { matchScore := 0, justification := "Does not match user preferences",
                       stage2Score := none, existingMatch := false, aiCalls := 0 }) := by
  have h := stage1_compensation_exclusion [oppTargetC1] [] cfgC1 20 oppTargetC1 2000 1000
    rfl rfl (by norm_num)
  exact ⟨h.1, h.2 [] userC1 7 rfl rfl (by decide) (by norm_num)⟩

/-! ## Theorems: the `is_remote` derived-flag invariant (C10) -/

/-- C10: `Opportunity.save` forces `is_remote == (work_mode == REMOTE)` for
every field combination, and persisting through `save` (insert or update by
pk) keeps every row of an invariant-respecting table invariant-respecting —
no pipeline persist can store a disagreeing flag. -/
theorem opportunity_save_is_remote_invariant (db : List Opportunity) (o : Opportunity)
    (hdb : ∀ r ∈ db, r.isRemote = decide (r.workMode = WorkMode.REMOTE)) :
    (saveOpportunity o).isRemote = decide ((saveOpportunity o).workMode = WorkMode.REMOTE) ∧
    ∀ r ∈ persistOpportunity db o, r.isRemote = decide (r.workMode = WorkMode.REMOTE) := by
  constructor
  · rfl
  · intro r hr
    simp only [persistOpportunity] at hr
    split at hr
    · rw [List.mem_map] at hr
      obtain ⟨a, ha, hfa⟩ := hr
      by_cases hid : a.id = (saveOpportunity o).id
      · rw [if_pos hid] at hfa
        rw [← hfa]
        rfl
      · rw [if_neg hid] at hfa
        rw [← hfa]
        exact hdb a ha
    · rw [List.mem_append] at hr
      rcases hr with hr | hr
      · exact hdb r hr
      · rw [List.mem_singleton] at hr
        subst hr
        rfl

/-- Witness for C10: saving a REMOTE opportunity whose in-memory `is_remote`
is (wrongly) `false` persists a row with `is_remote = true`. -/
theorem opportunity_save_is_remote_invariant_witness :
    (⟨1, .ACTIVE, 1, 1, 1, none, .REMOTE, .UNKNOWN, .UNKNOWN, none, none, none, none, true⟩
        : Opportunity).isRemote
      = decide ((⟨1, .ACTIVE, 1, 1, 1, none, .REMOTE, .UNKNOWN, .UNKNOWN, none, none, none,
          none, true⟩ : Opportunity).workMode = WorkMode.REMOTE) := by
  exact (opportunity_save_is_remote_invariant []
      ⟨1, .ACTIVE, 1, 1, 1, none, .REMOTE, .UNKNOWN, .UNKNOWN, none, none, none, none, false⟩
      (by intro r hr; exact absurd hr (List.not_mem_nil r))).2
    ⟨1, .ACTIVE, 1, 1, 1, none, .REMOTE, .UNKNOWN, .UNKNOWN, none, none, none, none, true⟩
    (by decide)

/-! ## JSON values and `json.loads` (model of the stdlib parser)

`GeminiAIProvider.generate_json` post-processes the model's text with
`json.loads` and `isinstance` checks.  `Json` is the value universe
(`dict`/`list`/`str`/`int`/`bool`/`None`; floats do not occur in the parsing
claims and integers model the numeric leaves).  `jsonParseL` models
`json.loads` on this fragment: one top-level value, surrounding whitespace
allowed, trailing non-whitespace rejected (`json.loads` raises on extra
data), string escapes limited to the simple single-character ones. -/

inductive Json where
  | jnull
  | jbool (b : Bool)
  | jnum (n : Int)
  | jstr (s : String)
  | jarr (xs : List Json)
  | jobj (fields : List (String × Json))

def isJsonWs (c : Char) : Bool :=
  c = ' ' || c = '\t' || c = '\n' || c = '\r'

def skipWs (cs : List Char) : List Char := cs.dropWhile isJsonWs

/-- Read the characters of a string literal after the opening quote, up to
and excluding the closing quote; supports the single-character escapes. -/
def parseStrChars : List Char → Option (List Char × List Char)
  | [] => none
  | '"' :: rest => some ([], rest)
  | '\\' :: c :: rest =>
    let esc : Option Char :=
      if c = '"' then some '"'
      else if c = '\\' then some '\\'
      else if c = '/' then some '/'
      else if c = 'n' then some '\n'
      else if c = 't' then some '\t'
      else if c = 'r' then some '\r'
      else none
    match esc with
    | none => none
    | some ec =>
      match parseStrChars rest with
      | some (s, r) => some (ec :: s, r)
      | none => none
  | c :: rest =>
    match parseStrChars rest with
    | some (s, r) => some (c :: s, r)
    | none => none

def parseDigits (cs : List Char) : Option (Nat × List Char) :=
  let ds := cs.takeWhile Char.isDigit
  if ds.isEmpty then none
  else some (ds.foldl (fun acc c => acc * 10 + (c.toNat - 48)) 0, cs.drop ds.length)

mutual

def parseVal : Nat → List Char → Option (Json × List Char)
  | 0, _ => none
  | Nat.succ fuel, cs0 =>
    let cs := skipWs cs0
    match cs with
    | [] => none
    | c :: rest =>
      if c = 'n' then
        if "ull".toList.isPrefixOf rest then some (.jnull, rest.drop 3) else none
      else if c = 't' then
        if "rue".toList.isPrefixOf rest then some (.jbool true, rest.drop 3) else none
      else if c = 'f' then
        if "alse".toList.isPrefixOf rest then some (.jbool false, rest.drop 4) else none
      else if c = '"' then
        match parseStrChars rest with
        | some (s, r) => some (.jstr (String.mk s), r)
        | none => none
      else if c = '[' then
        match skipWs rest with
        | ']' :: r => some (.jarr [], r)
        | other =>
          match parseArrItems fuel other with
          | some (vs, r) => some (.jarr vs, r)
          | none => none
      else if c = '{' then
        match skipWs rest with
        | '}' :: r => some (.jobj [], r)
        | other =>
          match parseObjItems fuel other with
          | some (fs, r) => some (.jobj fs, r)
          | none => none
      else if c = '-' then
        match parseDigits rest with
        | some (n, r) => some (.jnum (-(n : Int)), r)
        | none => none
      else if c.isDigit then
        match parseDigits (c :: rest) with
        | some (n, r) => some (.jnum (n : Int), r)
        | none => none
      else none

def parseArrItems : Nat → List Char → Option (List Json × List Char)
  | 0, _ => none
  | Nat.succ fuel, cs =>
    match parseVal fuel cs with
    | none => none
    | some (v, rest) =>
      match skipWs rest with
      | ',' :: more =>
        match parseArrItems fuel more with
        | some (vs, r) => some (v :: vs, r)
        | none => none
      | ']' :: more => some ([v], more)
      | _ => none

def parseObjItems : Nat → List Char → Option (List (String × Json) × List Char)
  | 0, _ => none
  | Nat.succ fuel, cs =>
    match skipWs cs with
    | '"' :: more =>
      match parseStrChars more with
      | none => none
      | some (key, rest) =>
        match skipWs rest with
        | ':' :: rest2 =>
          match parseVal fuel rest2 with
          | none => none
          | some (v, rest3) =>
            match skipWs rest3 with
            | ',' :: rest4 =>
              match parseObjItems fuel rest4 with
              | some (fs, r) => some ((String.mk key, v) :: fs, r)
              | none => none
            | '}' :: rest4 => some ([(String.mk key, v)], rest4)
            | _ => none
        | _ => none
    | _ => none

end

/-- `json.loads` on a character list: parse one value and require only
whitespace after it. -/
def jsonParseL (cs : List Char) : Option Json :=
  match parseVal (cs.length + 1) cs with
  | some (v, rest) => if (skipWs rest).isEmpty then some v else none
  | none => none

def jsonParse (s : String) : Option Json := jsonParseL s.toList

/-! ## `GeminiAIProvider.generate_json` response handling
(`ai/providers/gemini.py`, lines 515-542) -/

/-- `type(data).__name__` for the error message. -/
def jsonTypeName : Json → String
  | .jnull => "NoneType"
  | .jbool _ => "bool"
  | .jnum _ => "int"
  | .jstr _ => "str"
  | .jarr _ => "list"
  | .jobj _ => "dict"

/-- The `isinstance` checks after parsing: unwrap a leading object of a list
(anything else in a list is raised as *Transient*), accept a dict, and raise
Permanent for any other value. -/
def classifyJson : Json → Except AIErr (List (String × Json))
  | .jarr (x :: _) =>
    match x with
    | .jobj o => .ok o
    | other =>
      .error ⟨.transient, "Gemini returned a JSON list without an object; retrying extraction."⟩
  | .jarr [] =>
    .error ⟨.transient, "Gemini returned a JSON list without an object; retrying extraction."⟩
  | .jobj o => .ok o
  | other => .error ⟨.permanent, "Gemini returned JSON but not an object. Got: "
      ++ jsonTypeName other⟩

/-- `text.rfind(c)`: index of the last occurrence. -/
def lastIdxOf (cs : List Char) (c : Char) : Option Nat :=
  match cs.reverse.findIdx? fun x => x = c with
  | some i => some (cs.length - 1 - i)
  | none => none

/-- The response-parsing tail of `generate_json`: `text` is the stripped
model output.  `json.loads(text) if text else {}`; on `JSONDecodeError`,
slice from the first `{` to the last `}` and parse that; then apply the
`isinstance` classification. -/
def geminiGenerateJsonParse (text : String) : Except AIErr (List (String × Json)) :=
  let t := text.toList
  let parsed := if t.isEmpty then some (Json.jobj []) else jsonParseL t
  match parsed with
  | some d => classifyJson d
  | none =>
    match t.findIdx? (fun c => c = '{'), lastIdxOf t '}' with
    | some s, some e =>
      if s < e then
        match jsonParseL ((t.drop s).take (e + 1 - s)) with
        | some d => classifyJson d
        | none =>
          .error ⟨.permanent, "Gemini did not return valid JSON. Got: " ++ truncStr 500 text⟩
      else .error ⟨.permanent, "Gemini did not return valid JSON. Got: " ++ truncStr 500 text⟩
    | _, _ =>
      .error ⟨.permanent, "Gemini did not return valid JSON. Got: " ++ truncStr 500 text⟩

/-- Modelled from the spec: "if a JSON object is embedded inside extra text,
extract the first balanced `{...}` span" — the span from the first `{` to
its matching `}` by brace counting. -/
def balancedScan : List Char → Nat → List Char → Option (List Char)
  | [], _, _ => none
  | c :: rest, depth, acc =>
    if c = '{' then balancedScan rest (depth + 1) (c :: acc)
    else if c = '}' then
      if depth = 1 then some ((c :: acc).reverse)
      else if depth = 0 then none
      else balancedScan rest (depth - 1) (c :: acc)
    else balancedScan rest depth (c :: acc)

def specFirstBalancedSpan (t : List Char) : Option (List Char) :=
  match t.findIdx? fun c => c = '{' with
  | none => none
  | some i => balancedScan (t.drop i) 0 []

/-! ## Theorems: `generate_json` response classification (C7) -/

/-- Counterexample to C7: (a) the code slices from the first `{` to the
*last* `}` — not the first balanced span — so text whose first balanced
object parses cleanly is still rejected as Permanent when a later `}`
follows; (b) a top-level JSON array without a leading object is raised as a
*Transient* error, not a Permanent one. -/
theorem gemini_generate_json_counterexample :
    specFirstBalancedSpan ("note \x7b\"a\": 1\x7d end\x7d".toList)
      = some ("\x7b\"a\": 1\x7d".toList) ∧
    jsonParseL ("\x7b\"a\": 1\x7d".toList) = some (Json.jobj [("a", Json.jnum 1)]) ∧
    geminiGenerateJsonParse "note \x7b\"a\": 1\x7d end\x7d"
      = .error ⟨.permanent,
          "Gemini did not return valid JSON. Got: "
            ++ truncStr 500 "note \x7b\"a\": 1\x7d end\x7d"⟩ ∧
    geminiGenerateJsonParse "[1, 2]"
      = .error ⟨.transient,
          "Gemini returned a JSON list without an object; retrying extraction."⟩ := by
  exact ⟨rfl, rfl, rfl, rfl⟩

theorem findIdx?_append_first {α : Type} (p : α → Bool) (l2 : List α) (c0 : α)
    (hh : l2.head? = some c0) (hp : p c0 = true) :
    ∀ (l1 : List α), (∀ c ∈ l1, p c = false) → ∀ i,
      List.findIdx? p (l1 ++ l2) i = some (i + l1.length) := by
  intro l1
  induction l1 with
  | nil =>
    intro _ i
    cases l2 with
    | nil => simp at hh
    | cons a rest =>
      have ha : a = c0 := by simpa using hh
      subst ha
      simp [List.findIdx?_cons, hp]
  | cons a l1 ih =>
    intro h1 i
    have hpa : p a = false := h1 a (List.mem_cons_self _ _)
    rw [List.cons_append, List.findIdx?_cons, hpa]
    simp only [Bool.false_eq_true, if_false]
    rw [ih (fun c hc => h1 c (List.mem_cons_of_mem _ hc)) (i + 1)]
    simp only [List.length_cons]
    congr 1
    omega

/-- C7 amended: `generate_json` extracts the span from the first `{` to the
*last* `}` when `json.loads` fails on the whole text (this coincides with
the first balanced span when no `}` follows the object), unwraps the first
element of a top-level array when it is an object, raises *Transient* for a
top-level array without a leading object, and raises Permanent for any other
non-object parse result. -/
theorem gemini_generate_json_policy :
    (∀ (pre s post : List Char) (o : List (String × Json)),
      (∀ c ∈ pre, ¬c = '{') →
      (∀ c ∈ post, ¬c = '}') →
      s.head? = some '{' →
      s.getLast? = some '}' →
      2 ≤ s.length →
      jsonParseL (pre ++ s ++ post) = none →
      jsonParseL s = some (Json.jobj o) →
      geminiGenerateJsonParse (String.mk (pre ++ s ++ post)) = .ok o) ∧
    (∀ (t : String) (o : List (String × Json)) (rest : List Json),
      jsonParse t = some (Json.jarr (Json.jobj o :: rest)) →
      geminiGenerateJsonParse t = .ok o) ∧
    (∀ (t : String) (xs : List Json),
      jsonParse t = some (Json.jarr xs) →
      (∀ (o : List (String × Json)) (rest : List Json), xs ≠ Json.jobj o :: rest) →
      geminiGenerateJsonParse t
        = .error ⟨.transient,
            "Gemini returned a JSON list without an object; retrying extraction."⟩) ∧
    (∀ (t : String) (d : Json),
      jsonParse t = some d →
      (∀ xs, d ≠ Json.jarr xs) → (∀ o, d ≠ Json.jobj o) →
      geminiGenerateJsonParse t
        = .error ⟨.permanent,
            "Gemini returned JSON but not an object. Got: " ++ jsonTypeName d⟩) := by
  have hne : ∀ (t : String) (d : Json), jsonParse t = some d → t.toList.isEmpty = false := by
    intro t d hp
    rw [List.isEmpty_eq_false]
    intro h0
    rw [jsonParse, jsonParseL, h0] at hp
    simp [parseVal, skipWs] at hp
  have hclassify : ∀ (t : String) (d : Json), jsonParse t = some d →
      geminiGenerateJsonParse t = classifyJson d := by
    intro t d hp
    simp only [geminiGenerateJsonParse]
    rw [hne t d hp]
    simp only [Bool.false_eq_true, if_false]
    rw [jsonParse] at hp
    rw [hp]
  refine ⟨?_, ?_, ?_, ?_⟩
  · intro pre s post o hpre hpost hhead hlast hlen hfull hs
    have hsne : s ≠ [] := by
      intro h0
      rw [h0] at hhead
      simp at hhead
    have hTne : (pre ++ s ++ post) ≠ [] := by
      intro h0
      rcases List.append_eq_nil.mp h0 with ⟨h1, _⟩
      rcases List.append_eq_nil.mp h1 with ⟨_, h2⟩
      exact hsne h2
    have hfind : (pre ++ s ++ post).findIdx? (fun c => decide (c = '{')) = some pre.length := by
      rw [List.append_assoc]
      have hheadT : (s ++ post).head? = some '{' := by
        cases s with
        | nil => exact absurd rfl hsne
        | cons a rest => simpa using hhead
      have := findIdx?_append_first (fun c => decide (c = '{')) (s ++ post) '{' hheadT
        (by simp) pre (fun c hc => by simpa using hpre c hc) 0
      simpa using this
    have hlastIdx : lastIdxOf (pre ++ s ++ post) '}' = some (pre.length + s.length - 1) := by
      unfold lastIdxOf
      have hrev : (pre ++ s ++ post).reverse = post.reverse ++ (s.reverse ++ pre.reverse) := by
        rw [List.reverse_append, List.reverse_append]
      rw [hrev]
      have := findIdx?_append_first (fun c => decide (c = '}')) (s.reverse ++ pre.reverse) '}'
        (by
          rw [List.head?_append_of_ne_nil]
          · rw [List.head?_reverse]
            exact hlast
          · intro h0
            rw [List.reverse_eq_nil_iff] at h0
            exact hsne h0)
        (by simp) post.reverse (fun c hc => by
          rw [List.mem_reverse] at hc
          simpa using hpost c hc) 0
      rw [List.length_reverse] at this
      have hrw : (post.reverse ++ (s.reverse ++ pre.reverse)).findIdx? (fun c => decide (c = '}'))
          = some post.length := by simpa using this
      rw [hrw]
      simp only [List.length_reverse, List.length_append]
      congr 1
      omega
    simp only [geminiGenerateJsonParse]
    have htl : (String.mk (pre ++ s ++ post)).toList = pre ++ s ++ post := rfl
    rw [htl]
    rw [List.isEmpty_eq_false.mpr hTne]
    simp only [Bool.false_eq_true, if_false]
    rw [hfull, hfind, hlastIdx]
    have hlt : pre.length < pre.length + s.length - 1 := by omega
    dsimp only
    rw [if_pos hlt]
    have hdrop : (pre ++ s ++ post).drop pre.length = s ++ post := by
      rw [List.append_assoc, List.drop_left]
    have htake : (s ++ post).take (pre.length + s.length - 1 + 1 - pre.length) = s := by
      have harith : pre.length + s.length - 1 + 1 - pre.length = s.length := by omega
      rw [harith, List.take_left]
    rw [hdrop, htake, hs]
    rfl
  · intro t o rest hp
    rw [hclassify t _ hp]
    rfl
  · intro t xs hp hx
    rw [hclassify t _ hp]
    cases xs with
    | nil => rfl
    | cons x rest =>
      cases x with
      | jobj o => exact absurd rfl (hx o rest)
      | jnull => rfl
      | jbool b => rfl
      | jnum n => rfl
      | jstr s => rfl
      | jarr ys => rfl
  · intro t d hp harr hobj
    rw [hclassify t _ hp]
    cases d with
    | jarr xs => exact absurd rfl (harr xs)
    | jobj o => exact absurd rfl (hobj o)
    | jnull => rfl
    | jbool b => rfl
    | jnum n => rfl
    | jstr s => rfl

/-- Witness for the amended C7: "reply: {"ok": true} thanks" is sliced and
parsed to the object; "[{"a": 1}, 2]" unwraps the leading object;
"[1, 2]" is Transient; "5" is Permanent. -/
theorem gemini_generate_json_policy_witness :
    geminiGenerateJsonParse (String.mk ("reply: ".toList ++ "\x7b\"ok\": true\x7d".toList
        ++ " thanks".toList)) = .ok [("ok", Json.jbool true)] ∧
    geminiGenerateJsonParse "[\x7b\"a\": 1\x7d, 2]" = .ok [("a", Json.jnum 1)] ∧
    geminiGenerateJsonParse "[1, 2]"
      = .error ⟨.transient,
          "Gemini returned a JSON list without an object; retrying extraction."⟩ ∧
    geminiGenerateJsonParse "5"
      = .error ⟨.permanent, "Gemini returned JSON but not an object. Got: " ++ jsonTypeName
          (Json.jnum 5)⟩ := by
  refine ⟨?_, ?_, ?_, ?_⟩
  · exact gemini_generate_json_policy.1 "reply: ".toList "\x7b\"ok\": true\x7d".toList
      " thanks".toList [("ok", Json.jbool true)]
      (by decide) (by decide) rfl (by decide) (by decide) rfl rfl
  · exact gemini_generate_json_policy.2.1 "[\x7b\"a\": 1\x7d, 2]" [("a", Json.jnum 1)] [Json.jnum 2]
      rfl
  · exact gemini_generate_json_policy.2.2.1 "[1, 2]" [Json.jnum 1, Json.jnum 2] rfl
      (by intro o rest h; cases h)
  · exact gemini_generate_json_policy.2.2.2 "5" (Json.jnum 5) rfl
      (by intro xs h; cases h) (by intro o h; cases h)

/-! ## Deduplication normalization (`processing/services/dedupe.py`)

`normalize_for_hash` lower-cases and strips the text, removes URLs
(`https?://\S+`) and @handles (`@\w+`), removes a fixed list of
closed/filled status markers with sequential `str.replace`, maps
non-alphanumeric non-space characters to spaces and collapses whitespace.
Characters are Lean `Char`s; `Char.toLower`, `Char.isAlphanum` and
`Char.isWhitespace` model Python's `str.lower`/`isalnum`/`isspace` on the
character sets these texts use. -/

def isWsPy (c : Char) : Bool := c.isWhitespace

def lstrip (cs : List Char) : List Char := cs.dropWhile isWsPy

def rstrip (cs : List Char) : List Char := (cs.reverse.dropWhile isWsPy).reverse

/-- Python `str.strip()`. -/
def pyStrip (cs : List Char) : List Char := lstrip (rstrip cs)

def pyLower (cs : List Char) : List Char := cs.map Char.toLower

/-- Length of the regex match `https?://\S+` at the head of the list,
if any. -/
def urlMatchLen (cs : List Char) : Option Nat :=
  if "https://".toList.isPrefixOf cs then
    let span := (cs.drop 8).takeWhile fun c => !isWsPy c
    if span.isEmpty then none else some (8 + span.length)
  else if "http://".toList.isPrefixOf cs then
    let span := (cs.drop 7).takeWhile fun c => !isWsPy c
    if span.isEmpty then none else some (7 + span.length)
  else none

theorem urlMatchLen_pos (l : List Char) (n : Nat) (h : urlMatchLen l = some n) : 0 < n := by
  unfold urlMatchLen at h
  split_ifs at h <;> simp_all <;> omega

/-- Scanner for `_URL_RE.sub(" ", t)` with an explicit skip counter, so the
recursion is structural on the character list. -/
def stripUrlsGo : Nat → List Char → List Char
  | _, [] => []
  | Nat.succ k, _ :: rest => stripUrlsGo k rest
  | 0, c :: rest =>
    match urlMatchLen (c :: rest) with
    | some n => ' ' :: stripUrlsGo (n - 1) rest
    | none => c :: stripUrlsGo 0 rest

/-- `_URL_RE.sub(" ", t)`: leftmost-first replacement of each URL match by a
single space. -/
def stripUrls (cs : List Char) : List Char := stripUrlsGo 0 cs

theorem stripUrlsGo_eq_drop (l : List Char) : ∀ k, stripUrlsGo k l = stripUrls (l.drop k) := by
  induction l with
  | nil => intro k; cases k <;> rfl
  | cons c rest ih =>
    intro k
    cases k with
    | zero => rfl
    | succ k =>
      rw [show stripUrlsGo (Nat.succ k) (c :: rest) = stripUrlsGo k rest from rfl, ih k]
      rfl

theorem stripUrls_cons (c : Char) (cs : List Char) :
    stripUrls (c :: cs) =
      match urlMatchLen (c :: cs) with
      | some n => ' ' :: stripUrls ((c :: cs).drop n)
      | none => c :: stripUrls cs := by
  have hgo : stripUrls (c :: cs)
      = (match urlMatchLen (c :: cs) with
         | some n => ' ' :: stripUrlsGo (n - 1) cs
         | none => c :: stripUrlsGo 0 cs) := rfl
  rw [hgo]
  cases hm : urlMatchLen (c :: cs) with
  | none => rfl
  | some n =>
    have hpos := urlMatchLen_pos _ _ hm
    simp only
    rw [stripUrlsGo_eq_drop cs (n - 1)]
    have hdrop : (c :: cs).drop n = cs.drop (n - 1) := by
      cases n with
      | zero => exact absurd hpos (by omega)
      | succ m => simp
    rw [hdrop]

def isWordChar (c : Char) : Bool := c.isAlphanum || c = '_'

/-- Length of the regex match `@\w+` at the head of the list, if any. -/
def handleMatchLen (cs : List Char) : Option Nat :=
  match cs with
  | '@' :: rest =>
    let span := rest.takeWhile isWordChar
    if span.isEmpty then none else some (1 + span.length)
  | _ => none

theorem handleMatchLen_pos (l : List Char) (n : Nat) (h : handleMatchLen l = some n) : 0 < n := by
  unfold handleMatchLen at h
  split at h <;> simp_all
  omega

/-- Scanner for `_HANDLE_RE.sub(" ", t)`, structural on the list. -/
def stripHandlesGo : Nat → List Char → List Char
  | _, [] => []
  | Nat.succ k, _ :: rest => stripHandlesGo k rest
  | 0, c :: rest =>
    match handleMatchLen (c :: rest) with
    | some n => ' ' :: stripHandlesGo (n - 1) rest
    | none => c :: stripHandlesGo 0 rest

/-- `_HANDLE_RE.sub(" ", t)`. -/
def stripHandles (cs : List Char) : List Char := stripHandlesGo 0 cs

theorem stripHandlesGo_eq_drop (l : List Char) :
    ∀ k, stripHandlesGo k l = stripHandles (l.drop k) := by
  induction l with
  | nil => intro k; cases k <;> rfl
  | cons c rest ih =>
    intro k
    cases k with
    | zero => rfl
    | succ k =>
      rw [show stripHandlesGo (Nat.succ k) (c :: rest) = stripHandlesGo k rest from rfl, ih k]
      rfl

theorem stripHandles_cons (c : Char) (cs : List Char) :
    stripHandles (c :: cs) =
      match handleMatchLen (c :: cs) with
      | some n => ' ' :: stripHandles ((c :: cs).drop n)
      | none => c :: stripHandles cs := by
  have hgo : stripHandles (c :: cs)
      = (match handleMatchLen (c :: cs) with
         | some n => ' ' :: stripHandlesGo (n - 1) cs
         | none => c :: stripHandlesGo 0 cs) := rfl
  rw [hgo]
  cases hm : handleMatchLen (c :: cs) with
  | none => rfl
  | some n =>
    have hpos := handleMatchLen_pos _ _ hm
    simp only
    rw [stripHandlesGo_eq_drop cs (n - 1)]
    have hdrop : (c :: cs).drop n = cs.drop (n - 1) := by
      cases n with
      | zero => exact absurd hpos (by omega)
      | succ m => simp
    rw [hdrop]

/-- Python `s.replace(old, new)` scanner with a skip counter, structural on
the string. -/
def pyReplaceGo (old new : List Char) : Nat → List Char → List Char
  | _, [] => []
  | Nat.succ k, _ :: rest => pyReplaceGo old new k rest
  | 0, c :: rest =>
    if old.isPrefixOf (c :: rest) then new ++ pyReplaceGo old new (old.length - 1) rest
    else c :: pyReplaceGo old new 0 rest

/-- Python `s.replace(old, new)` for non-empty `old`: replace every
non-overlapping occurrence, scanning left to right.  (For empty `old` the
Python semantics differ, but every marker is non-empty.) -/
def pyReplace (old new s : List Char) : List Char :=
  if old.isEmpty then s else pyReplaceGo old new 0 s

theorem pyReplaceGo_eq_drop (old new : List Char) (hold : old ≠ []) (l : List Char) :
    ∀ k, pyReplaceGo old new k l = pyReplace old new (l.drop k) := by
  have hemp : old.isEmpty = false := by
    cases old with
    | nil => exact absurd rfl hold
    | cons a l => rfl
  induction l with
  | nil =>
    intro k
    cases k <;> simp [pyReplaceGo, pyReplace, hemp]
  | cons c rest ih =>
    intro k
    cases k with
    | zero =>
      rw [show (c :: rest).drop 0 = c :: rest from rfl, pyReplace, hemp]
      simp
    | succ k =>
      rw [show pyReplaceGo old new (Nat.succ k) (c :: rest) = pyReplaceGo old new k rest
        from rfl, ih k]
      rfl

theorem pyReplace_nil (old new : List Char) : pyReplace old new [] = [] := by
  unfold pyReplace
  split
  · rfl
  · rfl

theorem pyReplace_cons (old new : List Char) (hold : old ≠ []) (c : Char) (cs : List Char) :
    pyReplace old new (c :: cs) =
      if old.isPrefixOf (c :: cs) then new ++ pyReplace old new ((c :: cs).drop old.length)
      else c :: pyReplace old new cs := by
  have hemp : old.isEmpty = false := by
    cases old with
    | nil => exact absurd rfl hold
    | cons a l => rfl
  have hlen : 0 < old.length := by
    cases old with
    | nil => exact absurd rfl hold
    | cons a l => simp
  rw [pyReplace, hemp]
  simp only [Bool.false_eq_true, if_false]
  rw [show pyReplaceGo old new 0 (c :: cs)
      = (if old.isPrefixOf (c :: cs) then new ++ pyReplaceGo old new (old.length - 1) cs
         else c :: pyReplaceGo old new 0 cs) from rfl]
  rw [pyReplaceGo_eq_drop old new hold cs (old.length - 1)]
  rw [pyReplaceGo_eq_drop old new hold cs 0]
  have hdrop : (c :: cs).drop old.length = cs.drop (old.length - 1) := by
    cases hlo : old.length with
    | zero => omega
    | succ m => simp
  rw [hdrop]
  rfl

/-- The fixed status-marker list of `normalize_for_hash`, in source order. -/
def statusMarkers : List (List Char) :=
  ["‼️closed‼️".toList, "closed".toList, "#closed".toList, "vacancy filled".toList,
   "position filled".toList, "applications closed".toList, "application closed".toList,
   "hiring closed".toList, "no longer accepting applications".toList]

/-- The sequential `t = t.replace(marker, " ")` loop. -/
def stripMarkers (cs : List Char) : List Char :=
  statusMarkers.foldl (fun acc m => pyReplace m [' '] acc) cs

/-- `"".join(ch if (ch.isalnum() or ch.isspace()) else " " for ch in t)` -/
def punctToSpace (cs : List Char) : List Char :=
  cs.map fun c => if c.isAlphanum || c.isWhitespace then c else ' '

/-- `_WS_RE.sub(" ", t)` scanner: the flag records whether we are inside a
whitespace run whose single replacement space was already emitted. -/
def collapseWsGo : Bool → List Char → List Char
  | _, [] => []
  | inRun, c :: rest =>
    if isWsPy c then
      if inRun then collapseWsGo true rest else ' ' :: collapseWsGo true rest
    else c :: collapseWsGo false rest

/-- `_WS_RE.sub(" ", t)`: collapse every whitespace run to one space. -/
def collapseWs (cs : List Char) : List Char := collapseWsGo false cs

theorem collapseWsGo_true (l : List Char) :
    collapseWsGo true l = collapseWs (l.dropWhile isWsPy) := by
  induction l with
  | nil => rfl
  | cons c rest ih =>
    by_cases hc : isWsPy c = true
    · rw [show collapseWsGo true (c :: rest) = collapseWsGo true rest by simp [collapseWsGo, hc],
        ih, List.dropWhile_cons_of_pos hc]
    · have hcf : isWsPy c = false := Bool.eq_false_iff.mpr hc
      rw [List.dropWhile_cons_of_neg (by simp [hcf])]
      simp [collapseWsGo, collapseWs, hcf]

theorem collapseWs_cons (c : Char) (cs : List Char) :
    collapseWs (c :: cs) =
      if isWsPy c then ' ' :: collapseWs (cs.dropWhile isWsPy)
      else c :: collapseWs cs := by
  by_cases hc : isWsPy c = true
  · rw [if_pos hc, ← collapseWsGo_true]
    simp [collapseWs, collapseWsGo, hc]
  · have hcf : isWsPy c = false := Bool.eq_false_iff.mpr hc
    rw [if_neg hc]
    simp [collapseWs, collapseWsGo, hcf]

/-- `normalize_for_hash` (dedupe.py lines 12-45). -/
def normalize_for_hash (text : String) : String :=
  let t := pyLower (pyStrip text.toList)
  if t.isEmpty then ""
  else
    String.mk (pyStrip (collapseWs (punctToSpace (stripMarkers (stripHandles (stripUrls t))))))

/-! ## SHA-256 (model of `hashlib.sha256(...).hexdigest()`) over UTF-8 bytes -/

def shaMod : Nat := 4294967296

def rotr (n x : Nat) : Nat := ((x >>> n) ||| (x <<< (32 - n))) &&& 0xffffffff

def bigSigma0 (x : Nat) : Nat := rotr 2 x ^^^ rotr 13 x ^^^ rotr 22 x

def bigSigma1 (x : Nat) : Nat := rotr 6 x ^^^ rotr 11 x ^^^ rotr 25 x

def smallSigma0 (x : Nat) : Nat := rotr 7 x ^^^ rotr 18 x ^^^ (x >>> 3)

def smallSigma1 (x : Nat) : Nat := rotr 17 x ^^^ rotr 19 x ^^^ (x >>> 10)

def shaCh (x y z : Nat) : Nat := (x &&& y) ^^^ ((x ^^^ 0xffffffff) &&& z)

def shaMaj (x y z : Nat) : Nat := (x &&& y) ^^^ (x &&& z) ^^^ (y &&& z)

def sha256K : List Nat :=
  [1116352408, 1899447441, 3049323471, 3921009573, 961987163, 1508970993, 2453635748,
   2870763221, 3624381080, 310598401, 607225278, 1426881987, 1925078388, 2162078206,
   2614888103, 3248222580, 3835390401, 4022224774, 264347078, 604807628, 770255983,
   1249150122, 1555081692, 1996064986, 2554220882, 2821834349, 2952996808, 3210313671,
   3336571891, 3584528711, 113926993, 338241895, 666307205, 773529912, 1294757372,
   1396182291, 1695183700, 1986661051, 2177026350, 2456956037, 2730485921, 2820302411,
   3259730800, 3345764771, 3516065817, 3600352804, 4094571909, 275423344, 430227734,
   506948616, 659060556, 883997877, 958139571, 1322822218, 1537002063, 1747873779,
   1955562222, 2024104815, 2227730452, 2361852424, 2428436474, 2756734187, 3204031479,
   3329325298]

def sha256H0 : List Nat :=
  [1779033703, 3144134277, 1013904242, 2773480762, 1359893119, 2600822924, 528734635,
   1541459225]

/-- Extend the 16-word window, collecting the 48 additional schedule words. -/
def shaExtendGo (window : List Nat) (acc : List Nat) : Nat → List Nat
  | 0 => acc.reverse
  | Nat.succ n =>
    let next := (smallSigma1 (window.getD 14 0) + window.getD 9 0
      + smallSigma0 (window.getD 1 0) + window.getD 0 0) % shaMod
    shaExtendGo (window.tail ++ [next]) (next :: acc) n

def shaMessageSchedule (block16 : List Nat) : List Nat :=
  block16 ++ shaExtendGo block16 [] 48

structure Sha256State where
  sa : Nat
  sb : Nat
  sc : Nat
  sd : Nat
  se : Nat
  sf : Nat
  sg : Nat
  sh : Nat

def shaRound (st : Sha256State) (kw : Nat × Nat) : Sha256State :=
  let t1 := (st.sh + bigSigma1 st.se + shaCh st.se st.sf st.sg + kw.1 + kw.2) % shaMod
  let t2 := (bigSigma0 st.sa + shaMaj st.sa st.sb st.sc) % shaMod
  ⟨(t1 + t2) % shaMod, st.sa, st.sb, st.sc, (st.sd + t1) % shaMod, st.se, st.sf, st.sg⟩

def shaCompress (h : List Nat) (block16 : List Nat) : List Nat :=
  let ws := shaMessageSchedule block16
  let init : Sha256State := ⟨h.getD 0 0, h.getD 1 0, h.getD 2 0, h.getD 3 0, h.getD 4 0,
    h.getD 5 0, h.getD 6 0, h.getD 7 0⟩
  let fin := (sha256K.zip ws).foldl shaRound init
  [(h.getD 0 0 + fin.sa) % shaMod, (h.getD 1 0 + fin.sb) % shaMod,
   (h.getD 2 0 + fin.sc) % shaMod, (h.getD 3 0 + fin.sd) % shaMod,
   (h.getD 4 0 + fin.se) % shaMod, (h.getD 5 0 + fin.sf) % shaMod,
   (h.getD 6 0 + fin.sg) % shaMod, (h.getD 7 0 + fin.sh) % shaMod]

def toBytesBE (n len : Nat) : List Nat :=
  (List.range len).map fun i => (n >>> (8 * (len - 1 - i))) &&& 0xff

def sha256Pad (msg : List Nat) : List Nat :=
  let len := msg.length
  let k := (119 - len % 64) % 64
  msg ++ [0x80] ++ List.replicate k 0 ++ toBytesBE (len * 8) 8

def bytesToWordsGo : List Nat → List Nat
  | b0 :: b1 :: b2 :: b3 :: rest =>
    ((b0 <<< 24) ||| (b1 <<< 16) ||| (b2 <<< 8) ||| b3) :: bytesToWordsGo rest
  | _ => []

/-- Split the padded word stream into 16-word blocks (every valid padded
message is a whole number of blocks). -/
def chunks16 : List Nat → List (List Nat)
  | w0 :: w1 :: w2 :: w3 :: w4 :: w5 :: w6 :: w7 :: w8 :: w9 :: w10 :: w11 :: w12 :: w13 ::
      w14 :: w15 :: rest =>
    [w0, w1, w2, w3, w4, w5, w6, w7, w8, w9, w10, w11, w12, w13, w14, w15] :: chunks16 rest
  | _ => []

def sha256Words (msg : List Nat) : List Nat :=
  (chunks16 (bytesToWordsGo (sha256Pad msg))).foldl shaCompress sha256H0

def hexDigit (n : Nat) : Char := if n < 10 then Char.ofNat (48 + n) else Char.ofNat (87 + n)

def wordToHex (w : Nat) : List Char :=
  (List.range 8).map fun i => hexDigit ((w >>> (4 * (7 - i))) &&& 15)

def utf8EncodeChar (c : Char) : List Nat :=
  let n := c.toNat
  if n < 0x80 then [n]
  else if n < 0x800 then [0xc0 ||| (n >>> 6), 0x80 ||| (n &&& 0x3f)]
  else if n < 0x10000 then
    [0xe0 ||| (n >>> 12), 0x80 ||| ((n >>> 6) &&& 0x3f), 0x80 ||| (n &&& 0x3f)]
  else
    [0xf0 ||| (n >>> 18), 0x80 ||| ((n >>> 12) &&& 0x3f), 0x80 ||| ((n >>> 6) &&& 0x3f),
     0x80 ||| (n &&& 0x3f)]

def utf8Bytes (s : String) : List Nat := (s.toList.map utf8EncodeChar).flatten

/-- `hashlib.sha256(bytes).hexdigest()` -/
def sha256hex (s : String) : String :=
  String.mk ((sha256Words (utf8Bytes s)).map wordToHex).flatten

/-- `compute_content_hash` (dedupe.py lines 48-52). -/
def compute_content_hash (text : String) : String :=
  let norm := normalize_for_hash text
  if norm = "" then "" else sha256hex norm

/-! ## Character-level facts used by the normalization lemmas -/

theorem ws_enum (c : Char) (h : isWsPy c = true) :
    c = ' ' ∨ c = '\t' ∨ c = '\r' ∨ c = '\n' := by
  simp only [isWsPy, Char.isWhitespace, Bool.or_eq_true, decide_eq_true_eq] at h
  tauto

theorem toLower_ws (c : Char) (h : isWsPy c = true) : c.toLower = c := by
  rcases ws_enum c h with rfl | rfl | rfl | rfl <;> decide

theorem ws_not_wordChar (c : Char) (h : isWsPy c = true) : isWordChar c = false := by
  rcases ws_enum c h with rfl | rfl | rfl | rfl <;> decide

theorem ws_ne_of_not_ws (c d : Char) (hc : isWsPy c = true) (hd : isWsPy d = false) :
    c ≠ d := by
  intro h
  rw [h, hd] at hc
  cases hc

theorem punct_keeps_ws (c : Char) (h : isWsPy c = true) :
    (if c.isAlphanum || c.isWhitespace then c else ' ') = c := by
  rw [if_pos]
  rw [Bool.or_eq_true]
  exact Or.inr h

theorem punctToSpace_ws (W : List Char) (h : ∀ c ∈ W, isWsPy c = true) :
    punctToSpace W = W := by
  induction W with
  | nil => rfl
  | cons c rest ih =>
    rw [punctToSpace, List.map_cons, punct_keeps_ws c (h c (List.mem_cons_self _ _))]
    rw [show List.map (fun c => if c.isAlphanum || c.isWhitespace then c else ' ') rest
      = punctToSpace rest from rfl, ih fun c hc => h c (List.mem_cons_of_mem _ hc)]

/-! Strip lemmas -/

theorem lstrip_ws_cons (c : Char) (cs : List Char) (h : isWsPy c = true) :
    lstrip (c :: cs) = lstrip cs := by
  rw [lstrip, lstrip, List.dropWhile_cons_of_pos h]

theorem lstrip_allws (l : List Char) (h : ∀ c ∈ l, isWsPy c = true) : lstrip l = [] := by
  induction l with
  | nil => rfl
  | cons c rest ih =>
    rw [lstrip_ws_cons c rest (h c (List.mem_cons_self _ _))]
    exact ih fun c hc => h c (List.mem_cons_of_mem _ hc)

theorem lstrip_append_all_ws (a b : List Char) (h : ∀ c ∈ a, isWsPy c = true) :
    lstrip (a ++ b) = lstrip b := by
  induction a with
  | nil => rfl
  | cons c rest ih =>
    rw [List.cons_append, lstrip_ws_cons c _ (h c (List.mem_cons_self _ _))]
    exact ih fun c hc => h c (List.mem_cons_of_mem _ hc)

theorem lstrip_append_has_non_ws (a b : List Char) (c0 : Char) (hc0 : c0 ∈ a)
    (hnw : isWsPy c0 = false) : lstrip (a ++ b) = lstrip a ++ b := by
  induction a with
  | nil => simp at hc0
  | cons c rest ih =>
    by_cases hws : isWsPy c = true
    · rw [List.cons_append, lstrip_ws_cons c _ hws, lstrip_ws_cons c _ hws]
      rcases List.mem_cons.mp hc0 with rfl | hc0m
      · rw [hnw] at hws
        cases hws
      · exact ih hc0m
    · have hf : isWsPy c = false := Bool.eq_false_iff.mpr hws
      rw [List.cons_append, lstrip, List.dropWhile_cons_of_neg (by simp [hf]),
        lstrip, List.dropWhile_cons_of_neg (by simp [hf]), List.cons_append]

theorem rstrip_append_last_not_ws (x y : List Char) (c0 : Char)
    (hlast : y.getLast? = some c0) (h : isWsPy c0 = false) : rstrip (x ++ y) = x ++ y := by
  have hh := List.head?_reverse y
  rw [hlast] at hh
  obtain ⟨t, hyr⟩ : ∃ t, y.reverse = c0 :: t := by
    cases hyr : y.reverse with
    | nil =>
      rw [hyr] at hh
      cases hh
    | cons a t =>
      rw [hyr] at hh
      have ha : a = c0 := by simpa using hh
      exact ⟨t, by rw [ha]⟩
  rw [rstrip, List.reverse_append, hyr, List.cons_append,
    List.dropWhile_cons_of_neg (by simp [h]), ← List.cons_append, ← hyr,
    ← List.reverse_append, List.reverse_reverse]

theorem rstrip_nil : rstrip [] = [] := rfl

theorem rstrip_cons (c : Char) (z : List Char) :
    rstrip (c :: z) = if rstrip z = [] then (if isWsPy c = true then [] else [c])
      else c :: rstrip z := by
  rw [rstrip, List.reverse_cons, List.dropWhile_append]
  by_cases hz : rstrip z = []
  · rw [if_pos hz]
    rw [rstrip, List.reverse_eq_nil_iff] at hz
    rw [hz]
    simp only [List.isEmpty_nil, if_true]
    by_cases hc : isWsPy c = true
    · rw [if_pos hc, List.dropWhile_cons_of_pos hc]
      rfl
    · rw [if_neg hc, List.dropWhile_cons_of_neg hc]
      rfl
  · rw [if_neg hz]
    have hne : z.reverse.dropWhile isWsPy ≠ [] := by
      intro h0
      rw [rstrip, h0] at hz
      exact hz rfl
    rw [if_neg (by simpa using hne)]
    rw [List.reverse_append, rstrip]
    rfl

/-! URL / handle scanner lemmas: a whitespace-headed tail neither creates nor
changes matches on the left of the boundary. -/

theorem isPrefixOf_append_wsHead (p : List Char) (hp : ∀ c ∈ p, isWsPy c = false)
    (w : Char) (hw : isWsPy w = true) (vv : List Char) :
    ∀ x, p.isPrefixOf (x ++ w :: vv) = p.isPrefixOf x := by
  induction p with
  | nil => intro x; simp [List.isPrefixOf]
  | cons a p ih =>
    intro x
    cases x with
    | nil =>
      have ha : isWsPy a = false := hp a (List.mem_cons_self _ _)
      have haw : (a == w) = false := by
        rw [beq_eq_false_iff_ne]
        exact (ws_ne_of_not_ws w a hw ha).symm
      show (a == w && p.isPrefixOf vv) = false
      rw [haw]
      rfl
    | cons b x' =>
      show (a == b && p.isPrefixOf (x' ++ w :: vv)) = (a == b && p.isPrefixOf x')
      rw [ih (fun c hc => hp c (List.mem_cons_of_mem _ hc)) x']

theorem takeWhile_append_headFail (q : Char → Bool) (w : Char) (hqw : q w = false)
    (vv : List Char) : ∀ y, (y ++ w :: vv).takeWhile q = y.takeWhile q := by
  intro y
  induction y with
  | nil =>
    rw [List.nil_append, List.takeWhile_cons_of_neg (by simp [hqw])]
    rfl
  | cons c y' ih =>
    by_cases hc : q c = true
    · rw [List.cons_append, List.takeWhile_cons_of_pos hc, List.takeWhile_cons_of_pos hc, ih]
    · rw [List.cons_append, List.takeWhile_cons_of_neg hc, List.takeWhile_cons_of_neg hc]

theorem urlMatchLen_le (x : List Char) (n : Nat) (h : urlMatchLen x = some n) :
    n ≤ x.length := by
  unfold urlMatchLen at h
  by_cases h8 : ("https://".toList : List Char).isPrefixOf x = true
  · rw [if_pos h8] at h
    have h' : (if ((x.drop 8).takeWhile fun c => !isWsPy c).isEmpty then (none : Option Nat)
        else some (8 + ((x.drop 8).takeWhile fun c => !isWsPy c).length)) = some n := h
    split at h'
    · cases h'
    · have hn : 8 + ((x.drop 8).takeWhile fun c => !isWsPy c).length = n :=
        Option.some_inj.mp h'
      have hpl : 8 ≤ x.length := by
        have := (List.isPrefixOf_iff_prefix.mp h8).length_le
        simpa using this
      have hsp : (((x.drop 8).takeWhile fun c => !isWsPy c)).length ≤ (x.drop 8).length :=
        (List.takeWhile_sublist _).length_le
      rw [List.length_drop] at hsp
      omega
  · rw [if_neg h8] at h
    by_cases h7 : ("http://".toList : List Char).isPrefixOf x = true
    · rw [if_pos h7] at h
      have h' : (if ((x.drop 7).takeWhile fun c => !isWsPy c).isEmpty then (none : Option Nat)
          else some (7 + ((x.drop 7).takeWhile fun c => !isWsPy c).length)) = some n := h
      split at h'
      · cases h'
      · have hn : 7 + ((x.drop 7).takeWhile fun c => !isWsPy c).length = n :=
          Option.some_inj.mp h'
        have hpl : 7 ≤ x.length := by
          have := (List.isPrefixOf_iff_prefix.mp h7).length_le
          simpa using this
        have hsp : (((x.drop 7).takeWhile fun c => !isWsPy c)).length ≤ (x.drop 7).length :=
          (List.takeWhile_sublist _).length_le
        rw [List.length_drop] at hsp
        omega
    · rw [if_neg h7] at h
      cases h

theorem urlMatchLen_append_wsHead (w : Char) (hw : isWsPy w = true) (vv : List Char)
    (x : List Char) : urlMatchLen (x ++ w :: vv) = urlMatchLen x := by
  have hws : ∀ c ∈ ("https://".toList : List Char), isWsPy c = false := by decide
  have hws7 : ∀ c ∈ ("http://".toList : List Char), isWsPy c = false := by decide
  have hnw : (!isWsPy w) = false := by rw [hw]; rfl
  simp only [urlMatchLen, isPrefixOf_append_wsHead _ hws w hw vv x,
    isPrefixOf_append_wsHead _ hws7 w hw vv x]
  by_cases h8 : ("https://".toList : List Char).isPrefixOf x = true
  · have hlen : 8 ≤ x.length := by
      have := (List.isPrefixOf_iff_prefix.mp h8).length_le
      simpa using this
    rw [if_pos h8, if_pos h8, List.drop_append_of_le_length hlen,
      takeWhile_append_headFail _ w hnw vv (x.drop 8)]
  · rw [if_neg h8, if_neg h8]
    by_cases h7 : ("http://".toList : List Char).isPrefixOf x = true
    · have hlen : 7 ≤ x.length := by
        have := (List.isPrefixOf_iff_prefix.mp h7).length_le
        simpa using this
      rw [if_pos h7, if_pos h7, List.drop_append_of_le_length hlen,
        takeWhile_append_headFail _ w hnw vv (x.drop 7)]
    · rw [if_neg h7, if_neg h7]

theorem urlMatchLen_ws_head_none (c : Char) (l : List Char) (hc : isWsPy c = true) :
    urlMatchLen (c :: l) = none := by
  have h1 : ('h' == c) = false := by
    rw [beq_eq_false_iff_ne]
    exact (ws_ne_of_not_ws c 'h' hc (by decide)).symm
  have h8 : ("https://".toList : List Char).isPrefixOf (c :: l) = false := by
    show ('h' == c && _) = false
    rw [h1]
    rfl
  have h7 : ("http://".toList : List Char).isPrefixOf (c :: l) = false := by
    show ('h' == c && _) = false
    rw [h1]
    rfl
  simp only [urlMatchLen, h8, h7, Bool.false_eq_true, if_false]

theorem stripUrls_nil : stripUrls [] = [] := rfl

theorem stripUrls_append_ws (w : Char) (hw : isWsPy w = true) (vv : List Char) :
    ∀ (n : Nat) (u : List Char), u.length ≤ n →
      stripUrls (u ++ w :: vv) = stripUrls u ++ stripUrls (w :: vv) := by
  intro n
  induction n with
  | zero =>
    intro u hu
    have : u = [] := by
      cases u with
      | nil => rfl
      | cons a b => simp at hu
    subst this
    rfl
  | succ n ih =>
    intro u hu
    cases u with
    | nil => rfl
    | cons c u' =>
      rw [List.cons_append, stripUrls_cons c (u' ++ w :: vv), stripUrls_cons c u']
      have hms : urlMatchLen (c :: (u' ++ w :: vv)) = urlMatchLen (c :: u') := by
        have := urlMatchLen_append_wsHead w hw vv (c :: u')
        rw [List.cons_append] at this
        exact this
      rw [hms]
      cases hm : urlMatchLen (c :: u') with
      | none =>
        simp only
        rw [ih u' (by simp only [List.length_cons] at hu; omega), List.cons_append]
      | some k =>
        have hk := urlMatchLen_pos _ _ hm
        have hkle := urlMatchLen_le _ _ hm
        simp only
        have hdrop : ((c :: u') ++ w :: vv).drop k = (c :: u').drop k ++ w :: vv :=
          List.drop_append_of_le_length hkle
        rw [List.cons_append] at hdrop
        rw [hdrop]
        rw [ih ((c :: u').drop k) (by
          rw [List.length_drop]
          simp only [List.length_cons] at hu ⊢
          omega)]
        rw [List.cons_append]

theorem stripUrls_ws_pass (W : List Char) (hW : ∀ c ∈ W, isWsPy c = true) (z : List Char) :
    stripUrls (W ++ z) = W ++ stripUrls z := by
  induction W with
  | nil => rfl
  | cons w W' ih =>
    rw [List.cons_append, stripUrls_cons,
      urlMatchLen_ws_head_none w _ (hW w (List.mem_cons_self _ _))]
    simp only
    rw [ih fun c hc => hW c (List.mem_cons_of_mem _ hc), List.cons_append]

theorem handleMatchLen_cons_of_ne (c : Char) (l : List Char) (h : c ≠ '@') :
    handleMatchLen (c :: l) = none := by
  unfold handleMatchLen
  split
  · next heq =>
    rw [List.cons.injEq] at heq
    exact absurd heq.1 h
  · rfl

theorem handleMatchLen_le (x : List Char) (n : Nat) (h : handleMatchLen x = some n) :
    n ≤ x.length := by
  cases x with
  | nil => cases h
  | cons c l =>
    by_cases hc : c = '@'
    · subst hc
      have h' : (if (l.takeWhile isWordChar).isEmpty then (none : Option Nat)
          else some (1 + (l.takeWhile isWordChar).length)) = some n := h
      split at h'
      · cases h'
      · have hn : 1 + (l.takeWhile isWordChar).length = n := Option.some_inj.mp h'
        have hsp : (l.takeWhile isWordChar).length ≤ l.length :=
          (List.takeWhile_sublist _).length_le
        simp only [List.length_cons]
        omega
    · rw [handleMatchLen_cons_of_ne c l hc] at h
      cases h

theorem handleMatchLen_ws_head_none (c : Char) (l : List Char) (hc : isWsPy c = true) :
    handleMatchLen (c :: l) = none :=
  handleMatchLen_cons_of_ne c l (ws_ne_of_not_ws c '@' hc (by decide))

theorem handleMatchLen_append_wsHead (w : Char) (hw : isWsPy w = true) (vv : List Char)
    (x : List Char) : handleMatchLen (x ++ w :: vv) = handleMatchLen x := by
  cases x with
  | nil => rw [List.nil_append, handleMatchLen_ws_head_none w vv hw]; rfl
  | cons c x' =>
    by_cases hc : c = '@'
    · subst hc
      have hnw : isWordChar w = false := ws_not_wordChar w hw
      show handleMatchLen ('@' :: (x' ++ w :: vv)) = handleMatchLen ('@' :: x')
      rw [show handleMatchLen ('@' :: (x' ++ w :: vv))
          = (if ((x' ++ w :: vv).takeWhile isWordChar).isEmpty then none
             else some (1 + ((x' ++ w :: vv).takeWhile isWordChar).length)) from rfl]
      rw [show handleMatchLen ('@' :: x')
          = (if (x'.takeWhile isWordChar).isEmpty then none
             else some (1 + (x'.takeWhile isWordChar).length)) from rfl]
      rw [takeWhile_append_headFail isWordChar w hnw vv x']
    · rw [List.cons_append, handleMatchLen_cons_of_ne c _ hc, handleMatchLen_cons_of_ne c _ hc]

theorem stripHandles_nil : stripHandles [] = [] := rfl

theorem stripHandles_append_ws (w : Char) (hw : isWsPy w = true) (vv : List Char) :
    ∀ (n : Nat) (u : List Char), u.length ≤ n →
      stripHandles (u ++ w :: vv) = stripHandles u ++ stripHandles (w :: vv) := by
  intro n
  induction n with
  | zero =>
    intro u hu
    have : u = [] := by
      cases u with
      | nil => rfl
      | cons a b => simp at hu
    subst this
    rfl
  | succ n ih =>
    intro u hu
    cases u with
    | nil => rfl
    | cons c u' =>
      rw [List.cons_append, stripHandles_cons c (u' ++ w :: vv), stripHandles_cons c u']
      have hms : handleMatchLen (c :: (u' ++ w :: vv)) = handleMatchLen (c :: u') := by
        have := handleMatchLen_append_wsHead w hw vv (c :: u')
        rw [List.cons_append] at this
        exact this
      rw [hms]
      cases hm : handleMatchLen (c :: u') with
      | none =>
        simp only
        rw [ih u' (by simp only [List.length_cons] at hu; omega), List.cons_append]
      | some k =>
        have hkle := handleMatchLen_le _ _ hm
        simp only
        have hdrop : ((c :: u') ++ w :: vv).drop k = (c :: u').drop k ++ w :: vv :=
          List.drop_append_of_le_length hkle
        rw [List.cons_append] at hdrop
        rw [hdrop]
        rw [ih ((c :: u').drop k) (by
          have hk := handleMatchLen_pos _ _ hm
          rw [List.length_drop]
          simp only [List.length_cons] at hu ⊢
          omega)]
        rw [List.cons_append]

theorem stripHandles_ws_pass (W : List Char) (hW : ∀ c ∈ W, isWsPy c = true)
    (z : List Char) : stripHandles (W ++ z) = W ++ stripHandles z := by
  induction W with
  | nil => rfl
  | cons w W' ih =>
    rw [List.cons_append, stripHandles_cons,
      handleMatchLen_ws_head_none w _ (hW w (List.mem_cons_self _ _))]
    simp only
    rw [ih fun c hc => hW c (List.mem_cons_of_mem _ hc), List.cons_append]

/-! `pyReplace` split lemmas: if no occurrence of `old` can straddle the
boundary between `x` and `y`, the replacement distributes over `x ++ y`. -/

def NoCrossY (old y : List Char) : Prop :=
  ∀ s : List Char, s <:+ old → s ≠ [] → s.length < old.length → ¬ s <+: y

theorem pyReplace_append_noCross (old new y : List Char) (hold : old ≠ [])
    (hy : NoCrossY old y) :
    ∀ (n : Nat) (x : List Char), x.length ≤ n →
      pyReplace old new (x ++ y) = pyReplace old new x ++ pyReplace old new y := by
  intro n
  induction n with
  | zero =>
    intro x hx
    have hxe : x = [] := by
      cases x with
      | nil => rfl
      | cons a b => simp at hx
    subst hxe
    simp [pyReplace_nil]
  | succ n ih =>
    intro x hx
    cases x with
    | nil => simp [pyReplace_nil]
    | cons c x' =>
      rw [List.cons_append, pyReplace_cons old new hold c (x' ++ y),
        pyReplace_cons old new hold c x']
      by_cases hpre : old.isPrefixOf (c :: x') = true
      · have hpre2 : old.isPrefixOf (c :: (x' ++ y)) = true := by
          rw [List.isPrefixOf_iff_prefix] at hpre ⊢
          have h2 : old <+: (c :: x') ++ y := hpre.trans (List.prefix_append _ _)
          rwa [List.cons_append] at h2
        rw [if_pos hpre2, if_pos hpre]
        have hlen : old.length ≤ (c :: x').length :=
          (List.isPrefixOf_iff_prefix.mp hpre).length_le
        have hdrop : (c :: (x' ++ y)).drop old.length = (c :: x').drop old.length ++ y := by
          have h2 : ((c :: x') ++ y).drop old.length = (c :: x').drop old.length ++ y :=
            List.drop_append_of_le_length hlen
          rwa [List.cons_append] at h2
        rw [hdrop]
        have holen : 0 < old.length := by
          cases old with
          | nil => exact absurd rfl hold
          | cons a b => simp
        rw [ih ((c :: x').drop old.length) (by
          rw [List.length_drop]
          simp only [List.length_cons] at hx ⊢
          omega)]
        rw [List.append_assoc]
      · have hpre2 : ¬ old.isPrefixOf (c :: (x' ++ y)) = true := by
          intro hp2
          rw [List.isPrefixOf_iff_prefix] at hp2
          rw [show (c :: (x' ++ y)) = (c :: x') ++ y from by rw [List.cons_append]] at hp2
          by_cases hll : old.length ≤ (c :: x').length
          · have hpo : old <+: (c :: x') :=
              List.prefix_of_prefix_length_le hp2 (List.prefix_append _ _) hll
            exact hpre (List.isPrefixOf_iff_prefix.mpr hpo)
          · push_neg at hll
            have hxo : (c :: x') <+: old :=
              List.prefix_of_prefix_length_le (List.prefix_append _ _) hp2 (Nat.le_of_lt hll)
            have ho2 : old = (c :: x') ++ old.drop (c :: x').length := by
              rw [List.prefix_iff_eq_take] at hxo
              conv_lhs => rw [← List.take_append_drop (c :: x').length old]
              rw [← hxo]
            have hsuf : old.drop (c :: x').length <:+ old := List.drop_suffix _ _
            have hne2 : old.drop (c :: x').length ≠ [] := by
              rw [← List.length_pos, List.length_drop]
              omega
            have hlt : (old.drop (c :: x').length).length < old.length := by
              rw [List.length_drop]
              simp only [List.length_cons]
              omega
            have hpref : old.drop (c :: x').length <+: y := by
              rw [ho2] at hp2
              exact (List.prefix_append_right_inj (c :: x')).mp hp2
            exact hy _ hsuf hne2 hlt hpref
        rw [if_neg hpre2, if_neg hpre]
        rw [ih x' (by simp only [List.length_cons] at hx; omega), List.cons_append]

theorem pyReplace_ws_pass (old new : List Char) (hold : old ≠ [])
    (hhead : isWsPy (old.headD 'x') = false)
    (W : List Char) (hW : ∀ c ∈ W, isWsPy c = true) (z : List Char) :
    pyReplace old new (W ++ z) = W ++ pyReplace old new z := by
  induction W with
  | nil => rfl
  | cons w W' ih =>
    rw [List.cons_append, pyReplace_cons old new hold w (W' ++ z)]
    have hnp : ¬ old.isPrefixOf (w :: (W' ++ z)) = true := by
      cases old with
      | nil => exact absurd rfl hold
      | cons o0 os =>
        have hh : isWsPy o0 = false := hhead
        have hbe : (o0 == w) = false := by
          rw [beq_eq_false_iff_ne]
          exact (ws_ne_of_not_ws w o0 (hW w (List.mem_cons_self _ _)) hh).symm
        show ¬ ((o0 == w) && os.isPrefixOf (W' ++ z)) = true
        rw [hbe]
        simp
    rw [if_neg hnp, ih fun c hc => hW c (List.mem_cons_of_mem _ hc), List.cons_append]

/-- Decidable sufficient condition for `NoCrossY old (W ++ z)` for every
non-empty all-whitespace `W`: no proper non-empty suffix of `old` is all
whitespace, and no proper suffix of `old` decomposes as a non-empty
whitespace block followed by a prefix of `z`. -/
def crossFreeB (old z : List Char) : Bool :=
  old.tails.all fun s =>
    s.isEmpty || (s.length == old.length) ||
      ((!s.all isWsPy) &&
       (List.range s.length).all fun j =>
         !((s.take (j + 1)).all isWsPy && (s.drop (j + 1)).isPrefixOf z))

theorem crossFree_sound (old z : List Char) (hcf : crossFreeB old z = true)
    (W : List Char) (hW : ∀ c ∈ W, isWsPy c = true) (hWne : W ≠ []) :
    NoCrossY old (W ++ z) := by
  intro s hs hsne hslen hpre
  have hmem : s ∈ old.tails := (List.mem_tails s old).mpr hs
  unfold crossFreeB at hcf
  rw [List.all_eq_true] at hcf
  have hcs := hcf s hmem
  have hse : s.isEmpty = false := by
    cases s with
    | nil => exact absurd rfl hsne
    | cons a b => rfl
  have hsl : (s.length == old.length) = false := by
    rw [beq_eq_false_iff_ne]
    omega
  rw [hse, hsl] at hcs
  simp only [Bool.false_or, Bool.and_eq_true] at hcs
  obtain ⟨hnotall, hall⟩ := hcs
  have hs1 : 1 ≤ s.length := by
    cases s with
    | nil => exact absurd rfl hsne
    | cons a b => simp
  have hW1 : 1 ≤ W.length := by
    cases W with
    | nil => exact absurd rfl hWne
    | cons a b => simp
  set k := min s.length W.length with hk
  have hk1 : 1 ≤ k := by omega
  have hks : k ≤ s.length := by omega
  have hkW : k ≤ W.length := by omega
  have htake : s.take k = W.take k := by
    have h1 : s.take k <+: W ++ z := (List.take_prefix k s).trans hpre
    have h2 : W.take k <+: W ++ z := (List.take_prefix k W).trans (List.prefix_append _ _)
    have hl1 : (s.take k).length = k := by rw [List.length_take]; omega
    have hl2 : (W.take k).length = k := by rw [List.length_take]; omega
    exact (List.prefix_of_prefix_length_le h1 h2 (by rw [hl1, hl2])).eq_of_length
      (by rw [hl1, hl2])
  have htakews : ∀ c ∈ s.take k, isWsPy c = true := by
    intro c hc
    rw [htake] at hc
    exact hW c (List.mem_of_mem_take hc)
  by_cases hky : k = s.length
  · have hallws : s.all isWsPy = true := by
      rw [List.all_eq_true]
      intro c hc
      refine htakews c ?_
      rw [hky, List.take_length]
      exact hc
    rw [hallws] at hnotall
    cases hnotall
  · have hkWe : k = W.length := by omega
    have hkslt : k < s.length := by omega
    have hj := List.all_eq_true.mp hall (k - 1) (List.mem_range.mpr (by omega))
    rw [show k - 1 + 1 = k from by omega] at hj
    have h1 : (s.take k).all isWsPy = true := List.all_eq_true.mpr htakews
    have hsW : s.take k = W := by rw [htake, hkWe, List.take_length]
    have h2 : (s.drop k).isPrefixOf z = true := by
      rw [List.isPrefixOf_iff_prefix]
      have hsplit : W ++ s.drop k <+: W ++ z := by
        nth_rewrite 1 [← hsW]
        rw [List.take_append_drop]
        exact hpre
      exact (List.prefix_append_right_inj W).mp hsplit
    rw [h1, h2] at hj
    cases hj

/-! Marker-fold split: pushing an all-whitespace block plus a marker region
through the sequential `t = t.replace(marker, " ")` loop. -/

def shapeB (m : List Char) : Bool := !m.isEmpty && !isWsPy (m.headD 'x')

/-- Crossing-freedom of the (evolving) marker region against every marker of
the sequential replace loop. -/
def stagesOkB : List (List Char) → List Char → Bool
  | [], _ => true
  | m :: ms, z => crossFreeB m z && stagesOkB ms (pyReplace m [' '] z)

theorem foldl_replace_split (W : List Char) (hW : ∀ c ∈ W, isWsPy c = true) (hWne : W ≠ []) :
    ∀ (ms : List (List Char)), ms.all shapeB = true →
      ∀ (z a : List Char), stagesOkB ms z = true →
        ms.foldl (fun acc m => pyReplace m [' '] acc) (a ++ (W ++ z))
          = ms.foldl (fun acc m => pyReplace m [' '] acc) a
            ++ (W ++ ms.foldl (fun acc m => pyReplace m [' '] acc) z) := by
  intro ms
  induction ms with
  | nil => intro _ z a _; rfl
  | cons m ms ih =>
    intro hshape z a hok
    rw [List.all_cons, Bool.and_eq_true] at hshape
    have hm_ne : m ≠ [] := by
      have h1 := hshape.1
      simp only [shapeB, Bool.and_eq_true, Bool.not_eq_true'] at h1
      exact List.isEmpty_eq_false.mp h1.1
    have hm_head : isWsPy (m.headD 'x') = false := by
      have h1 := hshape.1
      simp only [shapeB, Bool.and_eq_true, Bool.not_eq_true'] at h1
      exact h1.2
    have hok' : crossFreeB m z = true ∧ stagesOkB ms (pyReplace m [' '] z) = true := by
      simp only [stagesOkB, Bool.and_eq_true] at hok
      exact hok
    simp only [List.foldl_cons]
    have hstep : pyReplace m [' '] (a ++ (W ++ z))
        = pyReplace m [' '] a ++ (W ++ pyReplace m [' '] z) := by
      rw [pyReplace_append_noCross m [' '] (W ++ z) hm_ne
        (crossFree_sound m z hok'.1 W hW hWne) a.length a (le_refl _)]
      rw [pyReplace_ws_pass m [' '] hm_ne hm_head W hW z]
    rw [hstep]
    exact ih hshape.2 (pyReplace m [' '] z) (pyReplace m [' '] a) hok'.2

theorem stripMarkers_split (a W z : List Char) (hW : ∀ c ∈ W, isWsPy c = true)
    (hWne : W ≠ []) (hshape : statusMarkers.all shapeB = true)
    (hok : stagesOkB statusMarkers z = true) :
    stripMarkers (a ++ (W ++ z)) = stripMarkers a ++ (W ++ stripMarkers z) :=
  foldl_replace_split W hW hWne statusMarkers hshape z a hok

/-! Collapse / strip utilities. -/

theorem collapseWs_allws (R : List Char) (hR : ∀ c ∈ R, isWsPy c = true) :
    collapseWs R = if R.isEmpty then [] else [' '] := by
  cases R with
  | nil => rfl
  | cons r R' =>
    rw [collapseWs_cons, if_pos (hR r (List.mem_cons_self _ _))]
    have hdw : R'.dropWhile isWsPy = [] :=
      lstrip_allws R' fun c hc => hR c (List.mem_cons_of_mem _ hc)
    rw [hdw]
    rfl

theorem rstrip_collapseWs_allws (R : List Char) (hR : ∀ c ∈ R, isWsPy c = true) :
    rstrip (collapseWs R) = [] := by
  rw [collapseWs_allws R hR]
  split <;> rfl

theorem rstrip_collapseWs_absorb (R : List Char) (hR : ∀ c ∈ R, isWsPy c = true) :
    ∀ (n : Nat) (x : List Char), x.length ≤ n →
      rstrip (collapseWs (x ++ R)) = rstrip (collapseWs x) := by
  intro n
  induction n with
  | zero =>
    intro x hx
    have hxe : x = [] := by
      cases x with
      | nil => rfl
      | cons a b => simp at hx
    subst hxe
    rw [List.nil_append, rstrip_collapseWs_allws R hR]
    rfl
  | succ n ih =>
    intro x hx
    cases x with
    | nil =>
      rw [List.nil_append, rstrip_collapseWs_allws R hR]
      rfl
    | cons c x' =>
      by_cases hc : isWsPy c = true
      · rw [List.cons_append, collapseWs_cons, if_pos hc, collapseWs_cons, if_pos hc]
        by_cases hnw : ∃ c0 ∈ x', isWsPy c0 = false
        · obtain ⟨c0, hc0m, hc0⟩ := hnw
          have hdw : (x' ++ R).dropWhile isWsPy = x'.dropWhile isWsPy ++ R :=
            lstrip_append_has_non_ws x' R c0 hc0m hc0
          rw [hdw]
          have hrec := ih (x'.dropWhile isWsPy) (by
            have hlen : (x'.dropWhile isWsPy).length ≤ x'.length :=
              (List.dropWhile_sublist isWsPy).length_le
            simp only [List.length_cons] at hx
            omega)
          rw [rstrip_cons, rstrip_cons, hrec]
        · push_neg at hnw
          have hws : ∀ c0 ∈ x', isWsPy c0 = true := by
            intro c0 h
            cases hb : isWsPy c0 with
            | true => rfl
            | false => exact absurd hb (hnw c0 h)
          have h1 : (x' ++ R).dropWhile isWsPy = [] := lstrip_allws (x' ++ R) (by
            intro c0 hc0
            rcases List.mem_append.mp hc0 with h | h
            exacts [hws _ h, hR _ h])
          have h2 : x'.dropWhile isWsPy = [] := lstrip_allws x' hws
          rw [h1, h2]
      · rw [List.cons_append, collapseWs_cons, if_neg hc, collapseWs_cons, if_neg hc]
        have hrec := ih x' (by simp only [List.length_cons] at hx; omega)
        rw [rstrip_cons, rstrip_cons, hrec]

theorem lstrip_eq_nil_allws (l : List Char) (h : lstrip l = []) :
    ∀ c ∈ l, isWsPy c = true := by
  induction l with
  | nil => intro c hc; simp at hc
  | cons a l' ih =>
    by_cases ha : isWsPy a = true
    · rw [lstrip_ws_cons a l' ha] at h
      intro c hc
      rcases List.mem_cons.mp hc with rfl | hc'
      exacts [ha, ih h c hc']
    · have haf : isWsPy a = false := Bool.eq_false_iff.mpr ha
      rw [lstrip, List.dropWhile_cons_of_neg (by simp [haf])] at h
      cases h

theorem rstrip_decomp (y : List Char) :
    ∃ w, y = rstrip y ++ w ∧ ∀ c ∈ w, isWsPy c = true := by
  refine ⟨(y.reverse.takeWhile isWsPy).reverse, ?_, ?_⟩
  · rw [rstrip, ← List.reverse_append, List.takeWhile_append_dropWhile, List.reverse_reverse]
  · intro c hc
    rw [List.mem_reverse] at hc
    exact List.mem_takeWhile_imp hc

theorem pyStrip_eq_nil_allws (y : List Char) (h : pyStrip y = []) :
    ∀ c ∈ y, isWsPy c = true := by
  obtain ⟨w, hdec, hw⟩ := rstrip_decomp y
  have h1 : ∀ c ∈ rstrip y, isWsPy c = true := lstrip_eq_nil_allws (rstrip y) h
  intro c hc
  rw [hdec] at hc
  rcases List.mem_append.mp hc with hm | hm
  exacts [h1 c hm, hw c hm]

theorem pyStrip_allws_nil (y : List Char) (hy : ∀ c ∈ y, isWsPy c = true) :
    pyStrip y = [] := by
  obtain ⟨w, hdec, hw⟩ := rstrip_decomp y
  refine lstrip_allws (rstrip y) ?_
  intro c hc
  exact hy c (by rw [hdec]; exact List.mem_append.mpr (Or.inl hc))

theorem lstrip_nonws_head (c : Char) (cs : List Char) (h : isWsPy c = false) :
    lstrip (c :: cs) = c :: cs := by
  rw [lstrip, List.dropWhile_cons_of_neg (by simp [h])]

theorem pyLower_ws_fix (w : List Char) (hw : ∀ c ∈ w, isWsPy c = true) :
    pyLower w = w := by
  induction w with
  | nil => rfl
  | cons a w' ih =>
    rw [pyLower, List.map_cons, toLower_ws a (hw a (List.mem_cons_self _ _))]
    congr 1
    exact ih fun c hc => hw c (List.mem_cons_of_mem _ hc)

theorem stripUrls_ws_block (u Wb z : List Char) (hW : ∀ c ∈ Wb, isWsPy c = true)
    (hWne : Wb ≠ []) :
    stripUrls (u ++ (Wb ++ z)) = stripUrls u ++ (Wb ++ stripUrls z) := by
  obtain ⟨w0, W1, rfl⟩ : ∃ w0 W1, Wb = w0 :: W1 := by
    cases Wb with
    | nil => exact absurd rfl hWne
    | cons a b => exact ⟨a, b, rfl⟩
  rw [List.cons_append,
    stripUrls_append_ws w0 (hW w0 (List.mem_cons_self _ _)) (W1 ++ z) u.length u (le_refl _)]
  congr 1
  rw [show w0 :: (W1 ++ z) = (w0 :: W1) ++ z from by rw [List.cons_append]]
  exact stripUrls_ws_pass (w0 :: W1) hW z

theorem stripHandles_ws_block (u Wb z : List Char) (hW : ∀ c ∈ Wb, isWsPy c = true)
    (hWne : Wb ≠ []) :
    stripHandles (u ++ (Wb ++ z)) = stripHandles u ++ (Wb ++ stripHandles z) := by
  obtain ⟨w0, W1, rfl⟩ : ∃ w0 W1, Wb = w0 :: W1 := by
    cases Wb with
    | nil => exact absurd rfl hWne
    | cons a b => exact ⟨a, b, rfl⟩
  rw [List.cons_append,
    stripHandles_append_ws w0 (hW w0 (List.mem_cons_self _ _)) (W1 ++ z) u.length u (le_refl _)]
  congr 1
  rw [show w0 :: (W1 ++ z) = (w0 :: W1) ++ z from by rw [List.cons_append]]
  exact stripHandles_ws_pass (w0 :: W1) hW z

theorem punctToSpace_append (a b : List Char) :
    punctToSpace (a ++ b) = punctToSpace a ++ punctToSpace b :=
  List.map_append _ _ _

/-- Appending one of the whitespace-safe status markers after a space leaves
`normalize_for_hash` unchanged, for every input text. -/
theorem normalize_append_marker (mk : List Char) (H1 : mk ≠ [])
    (H2 : pyLower mk = mk)
    (H3 : stripUrls mk = mk)
    (H4 : stripHandles mk = mk)
    (H5 : isWsPy (mk.headD 'x') = false)
    (H6 : isWsPy (mk.reverse.headD ' ') = false)
    (H7 : stagesOkB statusMarkers mk = true)
    (H8 : (punctToSpace (stripMarkers mk)).all isWsPy = true)
    (t : String) :
    normalize_for_hash (t ++ " " ++ String.mk mk) = normalize_for_hash t := by
  have hshape : statusMarkers.all shapeB = true := by decide
  obtain ⟨c1, t1, hrev⟩ : ∃ c1 t1, mk.reverse = c1 :: t1 := by
    cases hr : mk.reverse with
    | nil => exact absurd (List.reverse_eq_nil_iff.mp hr) H1
    | cons a b => exact ⟨a, b, rfl⟩
  have hc1 : mk.getLast? = some c1 := by
    rw [← List.head?_reverse, hrev]
    rfl
  have hc1ws : isWsPy c1 = false := by
    rw [hrev] at H6
    exact H6
  have hTL : (t ++ " " ++ String.mk mk).toList = t.toList ++ (' ' :: mk) := by
    show (t ++ " " ++ String.mk mk).data = t.data ++ (' ' :: mk)
    rw [String.data_append, String.data_append,
      show (" " : String).data = [' '] from rfl, List.append_assoc]
    rfl
  have hrs : rstrip (t.toList ++ (' ' :: mk)) = t.toList ++ (' ' :: mk) := by
    have h0 : rstrip ((t.toList ++ [' ']) ++ mk) = (t.toList ++ [' ']) ++ mk :=
      rstrip_append_last_not_ws (t.toList ++ [' ']) mk c1 hc1 hc1ws
    rw [List.append_assoc] at h0
    exact h0
  have hmkne : ¬ mk.isEmpty = true := by
    intro hEmp
    cases mk with
    | nil => exact H1 rfl
    | cons a b => cases hEmp
  by_cases hA : (pyLower (pyStrip t.toList)).isEmpty = true
  · have hPLlow : pyLower (pyStrip t.toList) = [] := by
      cases hh : pyLower (pyStrip t.toList) with
      | nil => rfl
      | cons a b => rw [hh] at hA; cases hA
    have hPL : pyStrip t.toList = [] := List.map_eq_nil.mp hPLlow
    have hLws : ∀ c ∈ t.toList, isWsPy c = true := pyStrip_eq_nil_allws t.toList hPL
    have hls : lstrip (t.toList ++ (' ' :: mk)) = mk := by
      rw [lstrip_append_all_ws t.toList (' ' :: mk) hLws, lstrip_ws_cons ' ' mk (by decide)]
      cases mk with
      | nil => exact absurd rfl H1
      | cons m0 ms => exact lstrip_nonws_head m0 ms H5
    have hLHS : normalize_for_hash (t ++ " " ++ String.mk mk) = "" := by
      simp only [normalize_for_hash]
      rw [hTL, pyStrip, hrs, hls, H2, if_neg hmkne, H3, H4]
      have hZ : ∀ c ∈ punctToSpace (stripMarkers mk), isWsPy c = true := by
        intro c hc
        exact List.all_eq_true.mp H8 c hc
      have hps : pyStrip (collapseWs (punctToSpace (stripMarkers mk))) = [] := by
        rw [pyStrip, rstrip_collapseWs_allws _ hZ]
        rfl
      rw [hps]
    have hRHS : normalize_for_hash t = "" := by
      simp only [normalize_for_hash]
      rw [if_pos hA]
    rw [hLHS, hRHS]
  · have hnw : ∃ c0 ∈ t.toList, isWsPy c0 = false := by
      by_contra hno
      push_neg at hno
      have hws : ∀ c ∈ t.toList, isWsPy c = true := by
        intro c h
        cases hb : isWsPy c with
        | true => rfl
        | false => exact absurd hb (hno c h)
      rw [pyStrip_allws_nil t.toList hws] at hA
      exact hA rfl
    obtain ⟨c0, hc0m, hc0⟩ := hnw
    obtain ⟨w, hdecL, hwastws⟩ := rstrip_decomp t.toList
    have hc0r : c0 ∈ rstrip t.toList := by
      have hm := hc0m
      rw [hdecL] at hm
      rcases List.mem_append.mp hm with h | h
      · exact h
      · rw [hwastws c0 h] at hc0; cases hc0
    have hlsL : lstrip t.toList = pyStrip t.toList ++ w := by
      conv_lhs => rw [hdecL]
      exact lstrip_append_has_non_ws (rstrip t.toList) w c0 hc0r hc0
    have hWws : ∀ c ∈ pyLower w ++ [' '], isWsPy c = true := by
      rw [pyLower_ws_fix w hwastws]
      intro c hc
      rcases List.mem_append.mp hc with h | h
      · exact hwastws c h
      · rw [List.mem_singleton] at h; rw [h]; decide
    have hWne : pyLower w ++ [' '] ≠ [] := by simp
    have ht0 : pyLower (pyStrip (t.toList ++ (' ' :: mk)))
        = pyLower (pyStrip t.toList) ++ ((pyLower w ++ [' ']) ++ mk) := by
      rw [pyStrip, hrs, lstrip_append_has_non_ws t.toList (' ' :: mk) c0 hc0m hc0, hlsL]
      simp only [pyLower, List.map_append, List.map_cons,
        show Char.toLower ' ' = ' ' from rfl, List.append_assoc, List.singleton_append]
      rw [show List.map Char.toLower mk = mk from H2]
    have hRws : ∀ c ∈ (pyLower w ++ [' ']) ++ punctToSpace (stripMarkers mk),
        isWsPy c = true := by
      intro c hc
      rcases List.mem_append.mp hc with h | h
      exacts [hWws c h, List.all_eq_true.mp H8 c h]
    have hchain : pyStrip (collapseWs (punctToSpace (stripMarkers (stripHandles (stripUrls
          (pyLower (pyStrip t.toList) ++ ((pyLower w ++ [' ']) ++ mk)))))))
        = pyStrip (collapseWs (punctToSpace (stripMarkers (stripHandles (stripUrls
          (pyLower (pyStrip t.toList))))))) := by
      rw [stripUrls_ws_block _ _ _ hWws hWne, H3,
        stripHandles_ws_block _ _ _ hWws hWne, H4,
        stripMarkers_split _ _ _ hWws hWne hshape H7,
        punctToSpace_append, punctToSpace_append, punctToSpace_ws _ hWws]
      exact congrArg lstrip
        (rstrip_collapseWs_absorb ((pyLower w ++ [' ']) ++ punctToSpace (stripMarkers mk))
          hRws _ _ (le_refl _))
    have hLHSne : ¬ (pyLower (pyStrip (t.toList ++ (' ' :: mk)))).isEmpty = true := by
      rw [ht0]
      intro hEmp
      cases hq : pyLower (pyStrip t.toList) ++ ((pyLower w ++ [' ']) ++ mk) with
      | nil => simp at hq
      | cons a b => rw [hq] at hEmp; cases hEmp
    simp only [normalize_for_hash]
    rw [hTL, if_neg hLHSne, if_neg hA, ht0, hchain]

/-- All hypotheses of `normalize_append_marker`, bundled as one decidable
check on the marker. -/
def safeMarkerB (mk : List Char) : Bool :=
  !mk.isEmpty && (pyLower mk == mk) && (stripUrls mk == mk) && (stripHandles mk == mk) &&
    !isWsPy (mk.headD 'x') && !isWsPy (mk.reverse.headD ' ') &&
    stagesOkB statusMarkers mk && (punctToSpace (stripMarkers mk)).all isWsPy

theorem safeMarker_sound (mk : List Char) (h : safeMarkerB mk = true) (t : String) :
    normalize_for_hash (t ++ " " ++ String.mk mk) = normalize_for_hash t := by
  simp only [safeMarkerB, Bool.and_eq_true, Bool.not_eq_true', beq_iff_eq] at h
  obtain ⟨⟨⟨⟨⟨⟨⟨h1, h2⟩, h3⟩, h4⟩, h5⟩, h6⟩, h7⟩, h8⟩ := h
  exact normalize_append_marker mk (List.isEmpty_eq_false.mp h1) h2 h3 h4 h5 h6 h7 h8 t

theorem compute_content_hash_congr (a b : String)
    (h : normalize_for_hash a = normalize_for_hash b) :
    compute_content_hash a = compute_content_hash b := by
  simp only [compute_content_hash, h]

set_option maxRecDepth 100000 in
/-- **C8** (corrected): appending a whitespace-separated "closed/filled" status
marker leaves `compute_content_hash` unchanged for the six markers that the
sequential replace loop strips cleanly ("‼️closed‼️", "closed", "#closed",
"vacancy filled", "position filled", "no longer accepting applications"), for
every input text; and a text whose normalized form is empty yields the empty
(falsy) fingerprint.  The claim's "every marker in the fixed list" is false:
the loop replaces "closed" before reaching "applications closed",
"application closed" and "hiring closed", so those three leave residues
(see the counterexample). -/
theorem content_hash_marker_invariance :
    (∀ (t : String), ∀ m ∈ (["‼️closed‼️", "closed", "#closed", "vacancy filled",
        "position filled", "no longer accepting applications"] : List String),
      m.toList ∈ statusMarkers ∧
      compute_content_hash (t ++ " " ++ m) = compute_content_hash t)
    ∧ (∀ t : String, normalize_for_hash t = "" → compute_content_hash t = "") := by
  constructor
  · intro t m hm
    have hsafe : safeMarkerB m.toList = true ∧ m.toList ∈ statusMarkers := by
      simp only [List.mem_cons, List.not_mem_nil, or_false] at hm
      rcases hm with rfl | rfl | rfl | rfl | rfl | rfl <;> exact ⟨by decide, by decide⟩
    refine ⟨hsafe.2, ?_⟩
    exact compute_content_hash_congr _ _ (safeMarker_sound m.toList hsafe.1 t)
  · intro t ht
    simp only [compute_content_hash, ht]
    rw [if_pos trivial]

theorem content_hash_marker_invariance_witness :
    compute_content_hash ("hello world" ++ " " ++ "closed") = compute_content_hash "hello world"
    ∧ compute_content_hash " \t " = "" :=
  ⟨(content_hash_marker_invariance.1 "hello world" "closed" (by decide)).2,
   content_hash_marker_invariance.2 " \t " (by decide)⟩

set_option maxRecDepth 100000 in
/-- Counterexample to C8 as stated: "applications closed" is in the marker
list of `dedupe.py`, yet appending it changes the fingerprint, because the
earlier "closed" replacement has already consumed its tail by the time the
loop reaches it, leaving the residue "applications". -/
theorem content_hash_marker_counterexample :
    "applications closed".toList ∈ statusMarkers ∧
    compute_content_hash ("x" ++ " " ++ "applications closed") ≠ compute_content_hash "x" := by
  constructor
  · decide
  · decide

end OppFinder
